import Mathlib

/-!
Verification model of the finch MCP server (`awslabs/finch_mcp_server/server.py`)
and of the push utility module it calls.

The repository sources contain `server.py` and the test file
`tests/test_utils_push.py`.  The helper modules `utils/push.py`, `utils/vm.py`,
`utils/build.py`, `utils/common.py` and `utils/ecr.py` are not part of the
sources; the definitions below that correspond to them are modelled from the
specification (each such definition carries a doc comment starting with
`Modelled from the spec:`).  External collaborators (the command executor, the
AWS calls, the VM status classifiers) are modelled as fields of an explicit
environment record, so every orchestration function is a pure function from
that environment to a result together with the trace of issued steps.
-/

/-- Result of running an external command: exit code, stdout, stderr. -/
structure ProcResult where
  returncode : Int
  stdout : String
  stderr : String
deriving DecidableEq

/-- Raw VM status as returned by the external status command. -/
structure StatusResult where
  returncode : Int
  text : String
deriving DecidableEq

/-- The universal operation-result shape (`format_result` dictionaries and the
`Result` pydantic model share it): a status string, a message, and the optional
`hash` extra field used by `get_image_hash`. -/
structure OpResult where
  status : String
  message : String
  hash : Option String
deriving DecidableEq

/-- `format_result('error', msg)`. -/
def opErr (m : String) : OpResult := ⟨"error", m, none⟩

/-- `format_result('success', msg)`. -/
def opOk (m : String) : OpResult := ⟨"success", m, none⟩

/-- Result dictionary of `configure_ecr`: a status string and the `changed`
flag that `server.py` reads with `config_result.get('changed', False)`. -/
structure ConfigResult where
  status : String
  changed : Bool
deriving DecidableEq

/-- One externally visible step issued by the server: installation check,
ECR-login configuration, Dockerfile scan, VM commands, an executed command
vector, the build command, or the repository-creation call with its
`scan_on_push` and `image_tag_mutability` arguments. -/
inductive Step where
  | installCheck : Step
  | dockerfileCheck : Step
  | configureEcr : Step
  | stopVM : Step
  | statusQuery : Step
  | initVM : Step
  | startVM : Step
  | exec : List String → Step
  | buildImage : Step
  | createRepo : String → Option String → Bool → String → Step
deriving DecidableEq, BEq

/-- Strip a literal character pattern from the front of a list, returning the
remainder on success. -/
def stripPrefixCh : List Char → List Char → Option (List Char)
  | [], rest => some rest
  | _ :: _, [] => none
  | p :: ps, c :: cs => if c = p then stripPrefixCh ps cs else none

/-- Modelled from the spec: `is_ecr_repository` lives in `utils/push.py`, which
is not among the sources.  Per the spec a managed-registry reference is a
12-digit account id, the literal `.dkr.ecr.`, a region token of shape
`<letters>-<letters>-<digit>`, the literal `.amazonaws.com`, a `/`, and a
non-empty repository path with an optional `:tag` suffix. -/
def ecrRefAccept (s : List Char) : Bool :=
  decide ((s.takeWhile Char.isDigit).length = 12) &&
  match stripPrefixCh ".dkr.ecr.".data (s.dropWhile Char.isDigit) with
  | none => false
  | some rest1 =>
    !(rest1.takeWhile Char.isAlpha).isEmpty &&
    match rest1.dropWhile Char.isAlpha with
    | '-' :: rest3 =>
      !(rest3.takeWhile Char.isAlpha).isEmpty &&
      match rest3.dropWhile Char.isAlpha with
      | '-' :: d :: rest6 =>
        d.isDigit &&
        match stripPrefixCh ".amazonaws.com/".data rest6 with
        | none => false
        | some path => !path.isEmpty
      | _ => false
    | _ => false

/-- Modelled from the spec: string-level wrapper of `ecrRefAccept`. -/
def is_ecr_repository (s : String) : Bool := ecrRefAccept s.data

/-- Split a list at the last occurrence of `c`: `splitLast c l = some (a, b)`
with `l = a ++ c :: b` and `c ∉ b`; `none` when `c ∉ l`. -/
def splitLast (c : Char) : List Char → Option (List Char × List Char)
  | [] => none
  | x :: xs =>
    match splitLast c xs with
    | some (a, b) => some (x :: a, b)
    | none => if x = c then some ([], xs) else none

/-- Modelled from the spec: drop an optional `:tag` suffix from a path
segment (everything from the last colon on). -/
def dropTagSeg (seg : List Char) : List Char :=
  match splitLast ':' seg with
  | none => seg
  | some (a, _) => a

/-- Modelled from the spec: strip an existing tag (if any) from the path after
the last `/` of an image reference, so that a `host:port` prefix is never
mistaken for a tag. -/
def stripTagL (l : List Char) : List Char :=
  match splitLast '/' l with
  | none => dropTagSeg l
  | some (a, b) => a ++ '/' :: dropTagSeg b

/-- Modelled from the spec: the short tag is the first 12 hexadecimal
characters following any `sha256:` prefix in the inspect identifier. -/
def shortHashL (h : List Char) : List Char :=
  match stripPrefixCh "sha256:".data h with
  | some r => r.take 12
  | none => h.take 12

/-- Modelled from the spec: retag target = reference with any existing tag
after the last slash stripped, then `:` and the 12-character short hash. -/
def retagTarget (image hash : String) : String :=
  ⟨stripTagL image.data ++ ':' :: shortHashL hash.data⟩

/-- Modelled from the spec: `get_image_hash` from `utils/push.py` (absent from
the sources; its command vector and messages are pinned by
`tests/test_utils_push.py`).  Runs `finch image inspect <image>`, fails with
`Failed to get hash ...` on a non-zero exit, with `Could not find hash ...`
when the identifier field is absent, and otherwise returns the identifier in
the `hash` extra field.  `exec` raising is modelled by `Except.error`, which
propagates to the caller; `extract` abstracts the JSON field lookup. -/
def get_image_hash (image : String) (exec : List String → Except String ProcResult)
    (extract : String → Option String) : Except String OpResult × List Step :=
  let c := ["finch", "image", "inspect", image]
  match exec c with
  | .error e => (.error e, [.exec c])
  | .ok pr =>
    if pr.returncode ≠ 0 then
      (.ok (opErr ("Failed to get hash for image " ++ image ++ ": " ++ pr.stderr)), [.exec c])
    else
      match extract pr.stdout with
      | none => (.ok (opErr ("Could not find hash in image inspect output for " ++ image)), [.exec c])
      | some h =>
        (.ok ⟨"success", "Successfully retrieved hash for image " ++ image, some h⟩, [.exec c])

/-- Modelled from the spec: `push_image` from `utils/push.py` (absent from the
sources; behaviour pinned by `tests/test_utils_push.py`).  Gets the image
hash, derives the retag target from the hash, issues `finch image tag` and
`finch image push`, and propagates each failure as an error result.  The trace
component records every command issued. -/
def push_image (image : String) (exec : List String → Except String ProcResult)
    (extract : String → Option String) : Except String OpResult × List Step :=
  match get_image_hash image exec extract with
  | (.error e, s) => (.error e, s)
  | (.ok h, s) =>
    if h.status = "error" then (.ok h, s)
    else
      let hash := h.hash.getD ""
      let target := retagTarget image hash
      let tagCmd := ["finch", "image", "tag", image, target]
      match exec tagCmd with
      | .error e => (.error e, s ++ [.exec tagCmd])
      | .ok tp =>
        if tp.returncode ≠ 0 then
          (.ok (opErr ("Failed to tag image with hash: " ++ tp.stderr)), s ++ [.exec tagCmd])
        else
          let pushCmd := ["finch", "image", "push", target]
          match exec pushCmd with
          | .error e => (.error e, s ++ [.exec tagCmd, .exec pushCmd])
          | .ok pp =>
            if pp.returncode ≠ 0 then
              (.ok (opErr ("Failed to push image " ++ target ++ ": " ++ pp.stderr)),
                s ++ [.exec tagCmd, .exec pushCmd])
            else
              (.ok (opOk ("Successfully pushed image " ++ target ++ " (original: " ++ image ++ ").")),
                s ++ [.exec tagCmd, .exec pushCmd])

/-- Environment of external collaborators for the server orchestrators.  The
functions of `utils/vm.py`, `utils/build.py` and `utils/ecr.py` are absent
from the sources; modelled from the spec, each collaborator call either raises
(`Except.error`, carrying the exception message) or returns its result
dictionary.  The VM-status marker predicates are kept abstract because the
spec fixes only their check order, not the marker texts. -/
structure ServerEnv where
  platformLinux : Bool
  installResult : Except String OpResult
  configResult : Except String ConfigResult
  stopResult : Except String OpResult
  getStatus : Except String StatusResult
  isNonexistent : String → Bool
  isStopped : String → Bool
  isRunning : String → Bool
  initResult : Except String OpResult
  startResult : Except String OpResult
  exec : List String → Except String ProcResult
  extract : String → Option String
  dockerfileEcr : Except String Bool
  buildResult : Except String OpResult
  createRepo : String → Option String → Bool → String → Except String OpResult

/-- VM states of the spec's classification (the Linux no-VM shortcut is
handled before classification and needs no state). -/
inductive VmState where
  | NonExistent : VmState
  | Stopped : VmState
  | Running : VmState
  | Unknown : VmState
deriving DecidableEq

/-- Ordered VM-state classification of `ensure_vm_running`: nonexistent
markers are checked first, then stopped, then running; anything else is
Unknown. -/
def classifyVm (env : ServerEnv) (st : StatusResult) : VmState :=
  if env.isNonexistent st.text then .NonExistent
  else if env.isStopped st.text then .Stopped
  else if env.isRunning st.text then .Running
  else .Unknown

/-- `ensure_vm_running` from `server.py`: Linux shortcut, status query,
ordered classification, minimal transition; exceptions from the collaborators
are caught by its own `try`/`except` and become an error result. -/
def ensure_vm_running (env : ServerEnv) : OpResult × List Step :=
  if env.platformLinux then (opOk "No VM operation required on Linux.", [])
  else
    match env.getStatus with
    | .error e => (opErr ("Error ensuring Finch VM is running: " ++ e), [.statusQuery])
    | .ok st =>
      if env.isNonexistent st.text then
        match env.initResult with
        | .error e => (opErr ("Error ensuring Finch VM is running: " ++ e), [.statusQuery, .initVM])
        | .ok r =>
          if r.status = "error" then (r, [.statusQuery, .initVM])
          else (opOk "Finch VM was initialized successfully.", [.statusQuery, .initVM])
      else if env.isStopped st.text then
        match env.startResult with
        | .error e => (opErr ("Error ensuring Finch VM is running: " ++ e), [.statusQuery, .startVM])
        | .ok r =>
          if r.status = "error" then (r, [.statusQuery, .startVM])
          else (opOk "Finch VM was started successfully.", [.statusQuery, .startVM])
      else if env.isRunning st.text then
        (opOk "Finch VM is already running.", [.statusQuery])
      else
        (opErr ("Unknown VM status: status code " ++ toString st.returncode), [.statusQuery])

/-- Tail of `finch_push_image` after the install/classify/configure steps:
ensure the VM is running, propagate its error, then run `push_image`; an
exception from `push_image` is caught at the tool boundary. -/
def pushPhase (env : ServerEnv) (image : String) (steps : List Step) : OpResult × List Step :=
  let vp := ensure_vm_running env
  if vp.1.status = "error" then (vp.1, steps ++ vp.2)
  else
    match push_image image env.exec env.extract with
    | (.error e, s3) => (opErr ("Error pushing image: " ++ e), steps ++ vp.2 ++ s3)
    | (.ok r, s3) => (r, steps ++ vp.2 ++ s3)

/-- `finch_push_image` from `server.py`: installation check, ECR
classification, conditional `configure_ecr` (only the `changed` flag of its
result is read) with a forced `stop_vm` when the configuration changed, then
the VM-ensure and push phase; the outer `try`/`except` turns any exception
into `format_result('error', 'Error pushing image: ...')`. -/
def finch_push_image (env : ServerEnv) (image : String) : OpResult × List Step :=
  match env.installResult with
  | .error e => (opErr ("Error pushing image: " ++ e), [.installCheck])
  | .ok inst =>
    if inst.status = "error" then (inst, [.installCheck])
    else if is_ecr_repository image then
      match env.configResult with
      | .error e => (opErr ("Error pushing image: " ++ e), [.installCheck, .configureEcr])
      | .ok cfg =>
        if cfg.changed then
          match env.stopResult with
          | .error e => (opErr ("Error pushing image: " ++ e), [.installCheck, .configureEcr, .stopVM])
          | .ok _ => pushPhase env image [.installCheck, .configureEcr, .stopVM]
        else pushPhase env image [.installCheck, .configureEcr]
    else pushPhase env image [.installCheck]

/-- Tail of `finch_build_container_image`: ensure the VM is running, propagate
its error, then invoke the build command (`build_image` of `utils/build.py`,
modelled as the `buildResult` collaborator since its flag assembly is out of
scope for the claims). -/
def buildPhase (env : ServerEnv) (steps : List Step) : OpResult × List Step :=
  let vp := ensure_vm_running env
  if vp.1.status = "error" then (vp.1, steps ++ vp.2)
  else
    match env.buildResult with
    | .error e => (opErr ("Error building Docker image: " ++ e), steps ++ vp.2 ++ [.buildImage])
    | .ok r => (r, steps ++ vp.2 ++ [.buildImage])

/-- `finch_build_container_image` from `server.py`: installation check,
Dockerfile ECR scan (`contains_ecr_reference`, modelled as the
`dockerfileEcr` collaborator), conditional `configure_ecr` (only `changed` is
read) with forced stop on change, then the VM-ensure and build phase; the
outer `try`/`except` yields `Error building Docker image: ...`. -/
def finch_build_container_image (env : ServerEnv) : OpResult × List Step :=
  match env.installResult with
  | .error e => (opErr ("Error building Docker image: " ++ e), [.installCheck])
  | .ok inst =>
    if inst.status = "error" then (inst, [.installCheck])
    else
      match env.dockerfileEcr with
      | .error e => (opErr ("Error building Docker image: " ++ e), [.installCheck, .dockerfileCheck])
      | .ok hasEcr =>
        if hasEcr then
          match env.configResult with
          | .error e =>
            (opErr ("Error building Docker image: " ++ e),
              [.installCheck, .dockerfileCheck, .configureEcr])
          | .ok cfg =>
            if cfg.changed then
              match env.stopResult with
              | .error e =>
                (opErr ("Error building Docker image: " ++ e),
                  [.installCheck, .dockerfileCheck, .configureEcr, .stopVM])
              | .ok _ => buildPhase env [.installCheck, .dockerfileCheck, .configureEcr, .stopVM]
            else buildPhase env [.installCheck, .dockerfileCheck, .configureEcr]
        else buildPhase env [.installCheck, .dockerfileCheck]

/-- `finch_create_ecr_repo` from `server.py`: no installation check and no VM
interaction; it always calls `create_ecr_repository` with
`scan_on_push=True` and `image_tag_mutability='IMMUTABLE'`, and its
`try`/`except` yields `Error checking/creating ECR repository: ...`. -/
def finch_create_ecr_repo (env : ServerEnv) (appName : String) (region : Option String) :
    OpResult × List Step :=
  match env.createRepo appName region true "IMMUTABLE" with
  | .error e =>
    (opErr ("Error checking/creating ECR repository: " ++ e),
      [.createRepo appName region true "IMMUTABLE"])
  | .ok r => (r, [.createRepo appName region true "IMMUTABLE"])

/-! ### The redacting log filter (`SensitiveDataFilter` in `server.py`)

The seven compiled patterns are modelled as executable substitution functions
over `List Char`, in the exact order of `self.patterns`:

1. `(?<![A-Z0-9])[A-Z0-9]{20}(?![A-Z0-9])` — with its look-arounds this regex
   matches exactly the maximal `[A-Z0-9]` runs of length 20, so its `sub` is
   the run-replacement `runSub keyIdCh 20 mark1`;
2. the analogous 40-character `[A-Za-z0-9/+=]` pattern;
3-6. `api[_-]?key[=:]\s*["'](.*?)["']` (IGNORECASE) and its `password`,
   `secret`, `token` variants — at a given start the lazy `(.*?)["']` takes the
   value up to the first quote character, with no newline allowed in between,
   and `re.sub` scans start positions left to right, resuming after each
   match;
7. `(https?://)([^:@\s]+):([^:@\s]+)@` with group replacement
   `\1REDACTED:REDACTED@`. -/

/-- The `[A-Z0-9]` character class of the credential-id pattern. -/
def keyIdCh (c : Char) : Bool := c.isUpper || c.isDigit

/-- The `[A-Za-z0-9/+=]` character class of the credential-secret pattern. -/
def secretCh (c : Char) : Bool := c.isAlpha || c.isDigit || c = '/' || c = '+' || c = '='

/-- Replacement text of the credential-id pattern. -/
def mark1 : List Char := "AWS_ACCESS_KEY_REDACTED".data

/-- Replacement text of the credential-secret pattern. -/
def mark2 : List Char := "AWS_SECRET_KEY_REDACTED".data

/-- Emit a finished maximal run: replaced by the marker iff its length is
exactly `n`. -/
def flushRun (n : Nat) (marker : List Char) (acc : List Char) : List Char :=
  if acc.length = n then marker else acc

/-- Replace every maximal run of `p`-characters of length exactly `n` by
`marker`; `acc` is the run being accumulated. -/
def runSubA (p : Char → Bool) (n : Nat) (marker : List Char) : List Char → List Char → List Char
  | acc, [] => flushRun n marker acc
  | acc, c :: cs =>
    if p c then runSubA p n marker (acc ++ [c]) cs
    else flushRun n marker acc ++ c :: runSubA p n marker [] cs

/-- `re.sub` of a bounded fixed-length-run pattern (patterns 1 and 2). -/
def runSub (p : Char → Bool) (n : Nat) (marker : List Char) (l : List Char) : List Char :=
  runSubA p n marker [] l

/-- The `\s` class (ASCII): space, tab, newline, carriage return, vertical
tab, form feed. -/
def wsChar (c : Char) : Bool :=
  c = ' ' || c = Char.ofNat 9 || c = Char.ofNat 10 || c = Char.ofNat 13 ||
  c = Char.ofNat 11 || c = Char.ofNat 12

/-- The `["']` class: a double or single quote. -/
def quoteCh (c : Char) : Bool := c = '"' || c = Char.ofNat 39

/-- Case-insensitive literal match (pattern given in lower case); returns the
remainder after the literal. -/
def ciStrip : List Char → List Char → Option (List Char)
  | [], rest => some rest
  | _ :: _, [] => none
  | p :: ps, c :: cs => if c.toLower = p then ciStrip ps cs else none

/-- The lazy `(.*?)["']`: consume up to the first quote character, failing on
a newline or at the end; returns the remainder after the closing quote. -/
def scanVal : List Char → Option (List Char)
  | [] => none
  | c :: cs => if quoteCh c then some cs else if c = Char.ofNat 10 then none else scanVal cs

/-- The `[=:]\s*["'](.*?)["']` tail shared by patterns 3-6. -/
def keyTail (l : List Char) : Option (List Char) :=
  match l with
  | [] => none
  | c :: cs =>
    if c = '=' || c = ':' then
      match cs.dropWhile wsChar with
      | [] => none
      | q :: cs3 => if quoteCh q then scanVal cs3 else none
    else none

/-- Matcher of the `password`/`secret`/`token` patterns at one start
position. -/
def tryKw (kw : List Char) (l : List Char) : Option (List Char) :=
  match ciStrip kw l with
  | some r => keyTail r
  | none => none

/-- Matcher of `api[_-]?key[=:]\s*["'](.*?)["']` at one start position; the
optional `[_-]` is taken iff present (when it is present but not followed by
`key`, the regex backtracks to the empty option and then fails on the
separator itself). -/
def tryApi (l : List Char) : Option (List Char) :=
  match ciStrip "api".data l with
  | none => none
  | some r =>
    match r with
    | [] => none
    | c :: cs =>
      if c = '_' || c = '-' then
        match ciStrip "key".data cs with
        | some r2 => keyTail r2
        | none => none
      else
        match ciStrip "key".data r with
        | some r2 => keyTail r2
        | none => none

/-- `re.sub` scan for a fixed-replacement pattern: try the matcher at every
position left to right, resume after each match; `fuel` bounds the recursion
and is instantiated with the length of the list. -/
def subKeyAux (m : List Char → Option (List Char)) (repl : List Char) :
    Nat → List Char → List Char
  | _, [] => []
  | 0, l => l
  | fuel + 1, c :: cs =>
    match m (c :: cs) with
    | some rest => repl ++ subKeyAux m repl fuel rest
    | none => c :: subKeyAux m repl fuel cs

/-- `re.sub` of one of the key/value patterns over a whole list. -/
def subKey (m : List Char → Option (List Char)) (repl : List Char) (l : List Char) : List Char :=
  subKeyAux m repl l.length l

/-- The `[^:@\s]` class of the URL-credential pattern. -/
def urlCh (c : Char) : Bool := !(c = ':' || c = '@' || wsChar c)

/-- Tail of the URL-credential matcher after the optional `s` of `https?`:
`://` then a nonempty greedy `[^:@\s]+` run, `:`, another nonempty run, `@`;
returns the group replacement `\1REDACTED:REDACTED@` and the remainder after
the `@`. -/
def tryUrlTail (hasS : Bool) (y : List Char) : Option (List Char × List Char) :=
  match stripPrefixCh "://".data y with
  | none => none
  | some r2 =>
    if (r2.takeWhile urlCh).isEmpty then none
    else
      match r2.dropWhile urlCh with
      | ':' :: r4 =>
        if (r4.takeWhile urlCh).isEmpty then none
        else
          match r4.dropWhile urlCh with
          | '@' :: r6 =>
            some ((if hasS then "https://REDACTED:REDACTED@".data
                   else "http://REDACTED:REDACTED@".data), r6)
          | _ => none
      | _ => none

/-- Matcher of `(https?://)([^:@\s]+):([^:@\s]+)@` at one start position:
after the literal `http`, a leading `s` is consumed iff present (when it is
present but not followed by `://`, the regex's backtracking to the empty
option also fails, since `://` cannot start at the `s`). -/
def tryUrl (l : List Char) : Option (List Char × List Char) :=
  match stripPrefixCh "http".data l with
  | none => none
  | some r0 =>
    match r0 with
    | 's' :: cs => tryUrlTail true cs
    | _ => tryUrlTail false r0

/-- `re.sub` scan for the URL-credential pattern. -/
def subUrlAux : Nat → List Char → List Char
  | _, [] => []
  | 0, l => l
  | fuel + 1, c :: cs =>
    match tryUrl (c :: cs) with
    | some (ins, rest) => ins ++ subUrlAux fuel rest
    | none => c :: subUrlAux fuel cs

/-- `re.sub` of the URL-credential pattern over a whole list. -/
def subUrl (l : List Char) : List Char := subUrlAux l.length l

/-- Apply the seven patterns of `SensitiveDataFilter.__init__` in their list
order to one text. -/
def redactL (l : List Char) : List Char :=
  subUrl (subKey (tryKw "token".data) "token=REDACTED".data
    (subKey (tryKw "secret".data) "secret=REDACTED".data
      (subKey (tryKw "password".data) "password=REDACTED".data
        (subKey tryApi "api_key=REDACTED".data
          (runSub secretCh 40 mark2 (runSub keyIdCh 20 mark1 l))))))

/-- String-level redaction pipeline. -/
def redact (s : String) : String := ⟨redactL s.data⟩

/-- A log-record value: a string or some non-string value (represented by an
opaque index). -/
inductive LogArg where
  | str : String → LogArg
  | other : Nat → LogArg
deriving DecidableEq

/-- The conceptual log record: message plus positional arguments. -/
structure LogRecord where
  msg : LogArg
  args : List LogArg
deriving DecidableEq

/-- The value persisted for one string positional argument.  The argument
loop of `SensitiveDataFilter.filter` executes
`args_list[i] = pattern.sub(replacement, arg)` with the unmodified loop
variable `arg` on every iteration, so each pattern's output overwrites the
previous one and only the substitution of the last pattern in the list — the
URL-credential pattern — survives into the stored tuple. -/
def redactArg (s : String) : String := ⟨subUrl s.data⟩

/-- Redact one positional argument: only string entries are rewritten, and
(because the inner loop substitutes into the original value) each through the
URL-credential pattern alone. -/
def filterArg : LogArg → LogArg
  | .str s => .str (redactArg s)
  | .other n => .other n

/-- `SensitiveDataFilter.filter`: rewrites the message through all seven
patterns in sequence when it is a string, rewrites every string positional
argument through the last pattern only (the `if record.args:` guard skips the
empty tuple), and always returns `True`. -/
def SensitiveDataFilter (r : LogRecord) : LogRecord × Bool :=
  let msg :=
    match r.msg with
    | .str s => LogArg.str (redact s)
    | m => m
  let args := if r.args.isEmpty then r.args else r.args.map filterArg
  (⟨msg, args⟩, true)

/-! ### Auxiliary executable predicates used in the claim statements. -/

/-- Length of the longest maximal `p`-run of a list, with the current run
length and the best so far as accumulators. -/
def maxRunA (p : Char → Bool) : Nat → Nat → List Char → Nat
  | cur, best, [] => max cur best
  | cur, best, c :: cs =>
    if p c then maxRunA p (cur + 1) best cs else maxRunA p 0 (max cur best) cs

/-- The eight-character tail `REDACTED` shared by every replacement text. -/
def redTail : List Char := "REDACTED".data

/-- Does `w` begin with a nonempty suffix of `REDACTED`? -/
def startsRSb (w : List Char) : Bool :=
  (List.range 8).any fun k => (redTail.drop k).isPrefixOf w

/-- Substring occurrence as a Boolean. -/
def occursIn (w l : List Char) : Bool := l.tails.any fun t => w.isPrefixOf t

/-- Is this step a `finch image tag` command? -/
def isTagCmd : Step → Bool
  | .exec ("finch" :: "image" :: "tag" :: _) => true
  | _ => false

/-- Is this step a `finch image push` command? -/
def isPushCmd : Step → Bool
  | .exec ("finch" :: "image" :: "push" :: _) => true
  | _ => false

/-- Is this step a VM transition command (initialize, start or stop)? -/
def isTransitionStep : Step → Bool
  | .initVM => true
  | .startVM => true
  | .stopVM => true
  | _ => false

/-- Is this step any VM interaction (status query included) or the
installation check? -/
def isVmOrInstallStep : Step → Bool
  | .installCheck => true
  | .statusQuery => true
  | .initVM => true
  | .startVM => true
  | .stopVM => true
  | _ => false

/-! ### Concrete collaborator instances used by witnesses and counterexamples -/

/-- An executor whose every command succeeds with exit code 0. -/
def okExec : List String → Except String ProcResult := fun _ => .ok ⟨0, "out", ""⟩

/-- The 64-hex-digit inspect identifier used by the repository tests. -/
def shaFull : String :=
  "sha256:1234567890abcdef1234567890abcdef1234567890abcdef1234567890abcdef"

/-- An identifier extractor that always finds `shaFull`. -/
def shaExtract : String → Option String := fun _ => some shaFull

/-- A valid managed-registry reference (from the repository tests). -/
def ecrImg : String := "123456789012.dkr.ecr.us-west-2.amazonaws.com/myrepo:latest"

/-- Environment on a Linux host (the VM phase is a no-op) with the given
installation, configuration, stop, executor, Dockerfile-scan, build and
repository-creation collaborators. -/
def mkEnv (inst : Except String OpResult) (cfg : Except String ConfigResult)
    (stp : Except String OpResult) (ex : List String → Except String ProcResult)
    (dfe : Except String Bool) (bld : Except String OpResult)
    (cr : String → Option String → Bool → String → Except String OpResult) : ServerEnv :=
  ⟨true, inst, cfg, stp, .ok ⟨0, "running"⟩, fun _ => false, fun _ => false, fun _ => true,
   .ok (opOk "init"), .ok (opOk "start"), ex, shaExtract, dfe, bld, cr⟩

/-- Environment on a non-Linux host whose status query returns the given raw
status and whose marker classifiers match the literal texts `nonexistent`,
`stopped` and `running`. -/
def vmEnv (rc : Int) (txt : String) : ServerEnv :=
  ⟨false, .ok (opOk "inst"), .ok ⟨"success", false⟩, .ok (opOk "stop"), .ok ⟨rc, txt⟩,
   fun t => t = "nonexistent", fun t => t = "stopped", fun t => t = "running",
   .ok (opOk "init"), .ok (opOk "start"), okExec, shaExtract, .ok false, .ok (opOk "built"),
   fun _ _ _ _ => .ok (opOk "created")⟩

/-- A always-succeeding repository-creation collaborator. -/
def okCreate : String → Option String → Bool → String → Except String OpResult :=
  fun _ _ _ _ => .ok (opOk "created")

/-- Environment whose `configure_ecr` returns an error-status result as data
(it does not raise). -/
def cfgStatusErrEnv : ServerEnv :=
  mkEnv (.ok (opOk "inst")) (.ok ⟨"error", false⟩) (.ok (opOk "stop")) okExec
    (.ok true) (.ok (opOk "built")) okCreate

/-- Environment whose `configure_ecr` raises an exception. -/
def cfgRaiseEnv : ServerEnv :=
  mkEnv (.ok (opOk "inst")) (.error "boom") (.ok (opOk "stop")) okExec
    (.ok true) (.ok (opOk "built")) okCreate

/-- Environment whose installation check raises an exception. -/
def instRaiseEnv : ServerEnv :=
  mkEnv (.error "boom") (.ok ⟨"success", false⟩) (.ok (opOk "stop")) okExec
    (.ok true) (.ok (opOk "built")) okCreate

/-- Environment whose repository-creation call raises an exception. -/
def createRaiseEnv : ServerEnv :=
  mkEnv (.ok (opOk "inst")) (.ok ⟨"success", false⟩) (.ok (opOk "stop")) okExec
    (.ok false) (.ok (opOk "built")) (fun _ _ _ _ => .error "boom")

/-! ### Redaction invariants (propositional forms used by the C5 analysis) -/

/-- No 20-character substring made entirely of credential-id-class
characters. -/
def no20 (l : List Char) : Prop :=
  ∀ w : List Char, w.length = 20 → w.all keyIdCh = true → ¬ w <:+: l

/-- No maximal credential-id-class run longer than 20 characters (stated as
the absence of any 21-character all-class substring). -/
def no21 (l : List Char) : Prop :=
  ∀ w : List Char, w.length = 21 → w.all keyIdCh = true → ¬ w <:+: l

/-- `w` begins with a nonempty suffix of `REDACTED`. -/
def startsRS (w : List Char) : Prop := ∃ k, k < 8 ∧ (redTail.drop k) <+: w

/-- Every 20-character all-class substring of `l` begins with a nonempty
suffix of `REDACTED` (the invariant preserved by the later redaction
passes). -/
def redInv (l : List Char) : Prop :=
  ∀ w : List Char, w.length = 20 → w.all keyIdCh = true → w <:+: l → startsRS w

/-- Executable check on a replacement text: every nonempty all-class suffix
of it is a nonempty suffix of `REDACTED`. -/
def replSufOK (repl : List Char) : Bool :=
  repl.tails.all fun w1 =>
    w1.isEmpty || !(w1.all keyIdCh) || (List.range 8).any fun k => w1 == redTail.drop k

/-! ### Helper lemmas -/

theorem stripPrefixCh_eq (p : List Char) : ∀ (l r : List Char),
    stripPrefixCh p l = some r → l = p ++ r := by
  induction p with
  | nil => intro l r h; simpa [stripPrefixCh] using h
  | cons x ps ih =>
    intro l r h
    cases l with
    | nil => simp [stripPrefixCh] at h
    | cons c cs =>
      simp only [stripPrefixCh] at h
      split at h
      · next hcx => rw [hcx]; simpa using ih cs r h
      · exact absurd h (by simp)

theorem stripPrefixCh_append (p r : List Char) : stripPrefixCh p (p ++ r) = some r := by
  induction p with
  | nil => rfl
  | cons x ps ih => simp [stripPrefixCh, ih]

theorem splitLast_none (c : Char) : ∀ l : List Char, splitLast c l = none → c ∉ l := by
  intro l
  induction l with
  | nil => intro _ h; simp at h
  | cons x xs ih =>
    intro h
    simp only [splitLast] at h
    cases hs : splitLast c xs with
    | some ab => rw [hs] at h; simp at h
    | none =>
      rw [hs] at h
      by_cases hx : x = c
      · simp [hx] at h
      · intro hm
        rcases List.mem_cons.1 hm with h1 | h2
        · exact hx h1.symm
        · exact ih hs h2

theorem splitLast_eq_none (c : Char) : ∀ l : List Char, c ∉ l → splitLast c l = none := by
  intro l
  induction l with
  | nil => intro _; rfl
  | cons x xs ih =>
    intro h
    have hx : ¬ x = c := fun he => h (he ▸ List.mem_cons_self x xs)
    have hxs : c ∉ xs := fun hm => h (List.mem_cons_of_mem x hm)
    simp [splitLast, ih hxs, hx]

theorem splitLast_some (c : Char) : ∀ (l a b : List Char),
    splitLast c l = some (a, b) → l = a ++ c :: b ∧ c ∉ b := by
  intro l
  induction l with
  | nil => intro a b h; simp [splitLast] at h
  | cons x xs ih =>
    intro a b h
    simp only [splitLast] at h
    cases hs : splitLast c xs with
    | some ab =>
      obtain ⟨a', b'⟩ := ab
      rw [hs] at h
      have h' : (x :: a', b') = (a, b) := Option.some.inj h
      have h1 : x :: a' = a := congrArg Prod.fst h'
      have h2 : b' = b := congrArg Prod.snd h'
      obtain ⟨he, hnb⟩ := ih a' b' hs
      subst h1; subst h2
      exact ⟨by rw [he]; rfl, hnb⟩
    | none =>
      rw [hs] at h
      by_cases hx : x = c
      · rw [if_pos hx] at h
        have h' : (([] : List Char), xs) = (a, b) := Option.some.inj h
        have h1 : ([] : List Char) = a := congrArg Prod.fst h'
        have h2 : xs = b := congrArg Prod.snd h'
        subst h1; subst h2
        refine ⟨?_, splitLast_none c xs hs⟩
        rw [hx]; rfl
      · rw [if_neg hx] at h
        exact absurd h (by simp)

theorem splitLast_append_cons (c : Char) (l t : List Char) (h : c ∉ t) :
    splitLast c (l ++ c :: t) = some (l, t) := by
  induction l with
  | nil => simp [splitLast, splitLast_eq_none c t h]
  | cons x xs ih => simp [splitLast, ih]

theorem splitLast_append_of_not_mem (c : Char) (l1 l2 : List Char) (h : c ∉ l2) :
    splitLast c (l1 ++ l2) = (splitLast c l1).map (fun ab => (ab.1, ab.2 ++ l2)) := by
  induction l1 with
  | nil =>
    rw [List.nil_append, splitLast_eq_none c l2 h]
    rfl
  | cons x xs ih =>
    have step : splitLast c ((x :: xs) ++ l2) =
        (match splitLast c (xs ++ l2) with
         | some (a, b) => some (x :: a, b)
         | none => if x = c then some ([], xs ++ l2) else none) := rfl
    have step2 : splitLast c (x :: xs) =
        (match splitLast c xs with
         | some (a, b) => some (x :: a, b)
         | none => if x = c then some ([], xs) else none) := rfl
    rw [step, step2, ih]
    cases hs : splitLast c xs with
    | some ab => obtain ⟨a', b'⟩ := ab; rfl
    | none => by_cases hx : x = c <;> simp [hx]

theorem dropTagSeg_of_not_mem (l : List Char) (h : ':' ∉ l) : dropTagSeg l = l := by
  unfold dropTagSeg
  rw [splitLast_eq_none ':' l h]

theorem not_mem_of_dropTagSeg_eq (l : List Char) (h : dropTagSeg l = l) : ':' ∉ l := by
  unfold dropTagSeg at h
  cases hs : splitLast ':' l with
  | none => exact splitLast_none ':' l hs
  | some ab =>
    obtain ⟨a, b⟩ := ab
    rw [hs] at h
    have h' : a = l := h
    obtain ⟨he, _⟩ := splitLast_some ':' l a b hs
    exfalso
    rw [he] at h'
    have := congrArg List.length h'
    simp at this

theorem stripTag_untagged_append (r tag : List Char) (h1 : '/' ∉ tag) (h2 : ':' ∉ tag)
    (h3 : stripTagL r = r) : stripTagL (r ++ ':' :: tag) = r := by
  have hnm : '/' ∉ ':' :: tag := by
    intro hm
    rcases List.mem_cons.1 hm with hh | hh
    · exact absurd hh (by decide)
    · exact h1 hh
  unfold stripTagL at h3 ⊢
  rw [splitLast_append_of_not_mem '/' r (':' :: tag) hnm]
  cases hs : splitLast '/' r with
  | none =>
    rw [hs] at h3
    have h3' : dropTagSeg r = r := h3
    show dropTagSeg (r ++ ':' :: tag) = r
    have hc : ':' ∉ r := not_mem_of_dropTagSeg_eq r h3'
    unfold dropTagSeg
    rw [splitLast_append_cons ':' r tag h2]
  | some ab =>
    obtain ⟨a, b⟩ := ab
    rw [hs] at h3
    have h3' : a ++ '/' :: dropTagSeg b = r := h3
    obtain ⟨he, _⟩ := splitLast_some '/' r a b hs
    show a ++ '/' :: dropTagSeg (b ++ ':' :: tag) = r
    have hb : dropTagSeg b = b := by
      have h4 : a ++ '/' :: dropTagSeg b = a ++ '/' :: b := h3'.trans he
      have h5 := List.append_cancel_left h4
      injection h5
    have hcb : ':' ∉ b := not_mem_of_dropTagSeg_eq b hb
    have hd : dropTagSeg (b ++ ':' :: tag) = b := by
      unfold dropTagSeg
      rw [splitLast_append_cons ':' b tag h2]
    rw [hd]
    exact he.symm

/-! ### Claim theorems: create-repo, push failure path, retag derivation -/

/-- Claim C10: every invocation of the create-ECR-repository tool issues no
installation check and no VM status, transition or stop command; the
underlying repository-creation call is always made with `scan_on_push=True`
and `image_tag_mutability='IMMUTABLE'` regardless of the request's fields. -/
theorem claim_C10 (env : ServerEnv) (appName : String) (region : Option String) :
    (finch_create_ecr_repo env appName region).2 =
      [Step.createRepo appName region true "IMMUTABLE"] ∧
    (finch_create_ecr_repo env appName region).2.all (fun s => !isVmOrInstallStep s) = true := by
  unfold finch_create_ecr_repo
  cases env.createRepo appName region true "IMMUTABLE" <;>
    simp [isVmOrInstallStep]

/-- Claim C6: whenever the inspect command used by `get_image_hash` returns a
non-zero exit code, `push_image` returns an error result whose message starts
with `Failed to get hash` (hence contains it) and issues zero tag commands and
zero push commands: its whole trace is the single inspect command. -/
theorem claim_C6 (image : String) (exec : List String → Except String ProcResult)
    (extract : String → Option String) (pr : ProcResult)
    (hex : exec ["finch", "image", "inspect", image] = .ok pr)
    (hrc : pr.returncode ≠ 0) :
    (push_image image exec extract).1 =
      .ok (opErr ("Failed to get hash for image " ++ image ++ ": " ++ pr.stderr)) ∧
    (∃ t : String,
      ("Failed to get hash for image " ++ image ++ ": " ++ pr.stderr) =
        "Failed to get hash" ++ t) ∧
    (push_image image exec extract).2 = [.exec ["finch", "image", "inspect", image]] ∧
    (push_image image exec extract).2.filter isTagCmd = [] ∧
    (push_image image exec extract).2.filter isPushCmd = [] := by
  have hm : push_image image exec extract =
      (.ok (opErr ("Failed to get hash for image " ++ image ++ ": " ++ pr.stderr)),
        [.exec ["finch", "image", "inspect", image]]) := by
    simp [push_image, get_image_hash, hex, hrc, opErr]
  refine ⟨by rw [hm], ?_, by rw [hm], by rw [hm]; rfl, by rw [hm]; rfl⟩
  refine ⟨" for image " ++ image ++ ": " ++ pr.stderr, ?_⟩
  apply String.ext
  simp [String.data_append]

/-- Witness for C6 at a concrete failing executor. -/
theorem claim_C6_witness :
    (push_image "img" (fun _ => .ok ⟨1, "", "no such image"⟩) (fun _ => none)).1 =
      .ok (opErr ("Failed to get hash for image " ++ "img" ++ ": " ++ "no such image")) ∧
    (∃ t : String,
      ("Failed to get hash for image " ++ "img" ++ ": " ++ "no such image") =
        "Failed to get hash" ++ t) ∧
    (push_image "img" (fun _ => .ok ⟨1, "", "no such image"⟩) (fun _ => none)).2 =
      [.exec ["finch", "image", "inspect", "img"]] ∧
    (push_image "img" (fun _ => .ok ⟨1, "", "no such image"⟩) (fun _ => none)).2.filter
      isTagCmd = [] ∧
    (push_image "img" (fun _ => .ok ⟨1, "", "no such image"⟩) (fun _ => none)).2.filter
      isPushCmd = [] :=
  claim_C6 "img" (fun _ => .ok ⟨1, "", "no such image"⟩) (fun _ => none)
    ⟨1, "", "no such image"⟩ rfl (by decide)

/-- Claim C2: retag derivation in `push_image` is deterministic: when the
inspect step succeeds with identifier `h`, the tag command issued is exactly
`finch image tag <image> <retagTarget image h>`, where the target is the
reference with any existing tag after the last slash stripped followed by `:`
and the first 12 characters after the `sha256:` prefix; adding a tag to an
untagged reference does not change the target, and on the repository's test
hash both `myrepo:latest` and `myrepo` yield `myrepo:1234567890ab`. -/
theorem claim_C2 (image h : String) (exec : List String → Except String ProcResult)
    (extract : String → Option String) (pr : ProcResult)
    (hex : exec ["finch", "image", "inspect", image] = .ok pr)
    (hrc : pr.returncode = 0)
    (hxt : extract pr.stdout = some h) :
    Step.exec ["finch", "image", "tag", image, retagTarget image h] ∈
      (push_image image exec extract).2 ∧
    (∀ rest : List Char, shortHashL ("sha256:".data ++ rest) = rest.take 12) ∧
    (∀ r tag : List Char, '/' ∉ tag → ':' ∉ tag → stripTagL r = r →
      retagTarget ⟨r ++ ':' :: tag⟩ h = retagTarget ⟨r⟩ h) ∧
    retagTarget "myrepo:latest" shaFull = "myrepo:1234567890ab" ∧
    retagTarget "myrepo" shaFull = "myrepo:1234567890ab" := by
  have hm : get_image_hash image exec extract =
      (.ok ⟨"success", "Successfully retrieved hash for image " ++ image, some h⟩,
        [.exec ["finch", "image", "inspect", image]]) := by
    simp [get_image_hash, hex, hrc, hxt]
  refine ⟨?_, ?_, ?_, ?_, ?_⟩
  · simp only [push_image, hm, Option.getD_some]
    rw [if_neg (by decide : ¬("success" : String) = "error")]
    split
    · simp
    · split
      · simp
      · split
        · simp
        · split <;> simp
  · intro rest
    unfold shortHashL
    rw [stripPrefixCh_append]
  · intro r tag h1 h2 h3
    unfold retagTarget
    exact congrArg String.mk (by
      show stripTagL (r ++ ':' :: tag) ++ ':' :: shortHashL h.data =
        stripTagL r ++ ':' :: shortHashL h.data
      rw [stripTag_untagged_append r tag h1 h2 h3, h3])
  · rfl
  · rfl

/-- Witness for C2 at the all-succeeding executor with the test hash. -/
theorem claim_C2_witness :
    Step.exec ["finch", "image", "tag", "myrepo:latest", retagTarget "myrepo:latest" shaFull] ∈
      (push_image "myrepo:latest" okExec shaExtract).2 ∧
    (∀ rest : List Char, shortHashL ("sha256:".data ++ rest) = rest.take 12) ∧
    (∀ r tag : List Char, '/' ∉ tag → ':' ∉ tag → stripTagL r = r →
      retagTarget ⟨r ++ ':' :: tag⟩ shaFull = retagTarget ⟨r⟩ shaFull) ∧
    retagTarget "myrepo:latest" shaFull = "myrepo:1234567890ab" ∧
    retagTarget "myrepo" shaFull = "myrepo:1234567890ab" :=
  claim_C2 "myrepo:latest" shaFull okExec shaExtract ⟨0, "out", ""⟩ rfl rfl rfl

/-- Claim C4: on a non-Linux host the status text is classified by the
ordered checks of `classifyVm` (nonexistent first, then stopped, then
running, else Unknown) and exactly the transition of the table is taken:
NonExistent issues one initialize and no start command, Stopped issues one
start and no initialize command, Running issues no transition command and
returns the success result, and Unknown returns an error carrying the raw
status code. -/
theorem claim_C4 (env : ServerEnv) (st : StatusResult)
    (hlin : env.platformLinux = false) (hst : env.getStatus = .ok st) :
    (classifyVm env st = .NonExistent →
      (ensure_vm_running env).2.count .initVM = 1 ∧
      (ensure_vm_running env).2.count .startVM = 0) ∧
    (classifyVm env st = .Stopped →
      (ensure_vm_running env).2.count .startVM = 1 ∧
      (ensure_vm_running env).2.count .initVM = 0) ∧
    (classifyVm env st = .Running →
      (ensure_vm_running env).2.filter isTransitionStep = [] ∧
      (ensure_vm_running env).1 = opOk "Finch VM is already running.") ∧
    (classifyVm env st = .Unknown →
      (ensure_vm_running env).1 =
        opErr ("Unknown VM status: status code " ++ toString st.returncode) ∧
      (ensure_vm_running env).2.filter isTransitionStep = []) := by
  unfold ensure_vm_running classifyVm
  rw [hlin, hst]
  simp only [Bool.false_eq_true, if_false]
  by_cases h1 : env.isNonexistent st.text = true
  · simp only [h1, if_true]
    refine ⟨fun _ => ?_, fun hc => by simp at hc, fun hc => by simp at hc,
      fun hc => by simp at hc⟩
    cases env.initResult with
    | error e => exact ⟨rfl, rfl⟩
    | ok r =>
      by_cases hr : r.status = "error"
      · simp only [if_pos hr]; exact ⟨rfl, rfl⟩
      · simp only [if_neg hr]; exact ⟨rfl, rfl⟩
  · simp only [h1, if_false]
    by_cases h2 : env.isStopped st.text = true
    · simp only [h2, if_true]
      refine ⟨fun hc => by simp at hc, fun _ => ?_, fun hc => by simp at hc,
        fun hc => by simp at hc⟩
      cases env.startResult with
      | error e => exact ⟨rfl, rfl⟩
      | ok r =>
        by_cases hr : r.status = "error"
        · simp only [if_pos hr]; exact ⟨rfl, rfl⟩
        · simp only [if_neg hr]; exact ⟨rfl, rfl⟩
    · simp only [h2, if_false]
      by_cases h3 : env.isRunning st.text = true
      · simp only [h3, if_true]
        exact ⟨fun hc => by simp at hc, fun hc => by simp at hc,
          fun _ => ⟨rfl, rfl⟩, fun hc => by simp at hc⟩
      · simp only [h3, if_false]
        exact ⟨fun hc => by simp at hc, fun hc => by simp at hc,
          fun hc => by simp at hc, fun _ => ⟨rfl, rfl⟩⟩

/-- Witness for C4 at the marker environments, one per VM state. -/
theorem claim_C4_witness :
    ((ensure_vm_running (vmEnv 0 "nonexistent")).2.count .initVM = 1 ∧
     (ensure_vm_running (vmEnv 0 "nonexistent")).2.count .startVM = 0) ∧
    ((ensure_vm_running (vmEnv 0 "stopped")).2.count .startVM = 1 ∧
     (ensure_vm_running (vmEnv 0 "stopped")).2.count .initVM = 0) ∧
    ((ensure_vm_running (vmEnv 0 "running")).2.filter isTransitionStep = [] ∧
     (ensure_vm_running (vmEnv 0 "running")).1 = opOk "Finch VM is already running.") ∧
    ((ensure_vm_running (vmEnv 7 "weird")).1 =
      opErr ("Unknown VM status: status code " ++ toString (7 : Int)) ∧
     (ensure_vm_running (vmEnv 7 "weird")).2.filter isTransitionStep = []) :=
  ⟨(claim_C4 (vmEnv 0 "nonexistent") ⟨0, "nonexistent"⟩ rfl rfl).1 (by decide),
   (claim_C4 (vmEnv 0 "stopped") ⟨0, "stopped"⟩ rfl rfl).2.1 (by decide),
   (claim_C4 (vmEnv 0 "running") ⟨0, "running"⟩ rfl rfl).2.2.1 (by decide),
   (claim_C4 (vmEnv 7 "weird") ⟨7, "weird"⟩ rfl rfl).2.2.2 (by decide)⟩

/-- Claim C7: in the Running state `ensure_vm_running` is idempotent: two
successive invocations issue zero transition commands (no initialize, start
or stop) in total, both succeed, and each trace is only the status query. -/
theorem claim_C7 (env : ServerEnv) (st : StatusResult)
    (hlin : env.platformLinux = false) (hst : env.getStatus = .ok st)
    (hcl : classifyVm env st = .Running) :
    ((ensure_vm_running env).2 ++ (ensure_vm_running env).2).filter isTransitionStep = [] ∧
    (ensure_vm_running env).1.status = "success" ∧
    (ensure_vm_running env).2 = [Step.statusQuery] := by
  unfold classifyVm at hcl
  by_cases h1 : env.isNonexistent st.text = true
  · simp [h1] at hcl
  · by_cases h2 : env.isStopped st.text = true
    · simp [h1, h2] at hcl
    · by_cases h3 : env.isRunning st.text = true
      · have he : ensure_vm_running env =
            (opOk "Finch VM is already running.", [Step.statusQuery]) := by
          unfold ensure_vm_running
          rw [hlin, hst]
          simp [h1, h2, h3]
        rw [he]
        exact ⟨by decide, rfl, rfl⟩
      · simp [h1, h2, h3] at hcl

/-- Witness for C7 at the running-marker environment. -/
theorem claim_C7_witness :
    ((ensure_vm_running (vmEnv 0 "running")).2 ++
      (ensure_vm_running (vmEnv 0 "running")).2).filter isTransitionStep = [] ∧
    (ensure_vm_running (vmEnv 0 "running")).1.status = "success" ∧
    (ensure_vm_running (vmEnv 0 "running")).2 = [Step.statusQuery] :=
  claim_C7 (vmEnv 0 "running") ⟨0, "running"⟩ rfl rfl (by decide)

/-- Counterexample to C3 as stated: with a `configure_ecr` that reports
failure as an error-status result (as the spec's component contract
prescribes), the push orchestrator does not return that error; it proceeds
through the VM-ensure and push steps and here even returns success. -/
theorem claim_C3_cex :
    cfgStatusErrEnv.configResult = .ok ⟨"error", false⟩ ∧
    (finch_push_image cfgStatusErrEnv ecrImg).1.status = "success" ∧
    (finch_push_image cfgStatusErrEnv ecrImg).2.filter isPushCmd ≠ [] := by
  refine ⟨rfl, ?_, ?_⟩ <;> decide

/-- Claim C3, amended: the orchestrators read only the `changed` flag of the
configuration result.  A configuration failure is fatal only when
`configure_ecr` raises: then the boundary returns the exception as an error
result and no VM or push/build step is issued.  A failure returned as an
error-status result is ignored: the orchestrator proceeds to the VM-ensure
and push/build phase regardless of the configuration status. -/
theorem claim_C3 (env : ServerEnv) (image : String) (i : OpResult) (e : String)
    (cfg : ConfigResult)
    (hinst : env.installResult = .ok i) (hist : ¬ i.status = "error") :
    (is_ecr_repository image = true → env.configResult = .error e →
      finch_push_image env image =
        (opErr ("Error pushing image: " ++ e), [.installCheck, .configureEcr])) ∧
    (env.dockerfileEcr = .ok true → env.configResult = .error e →
      finch_build_container_image env =
        (opErr ("Error building Docker image: " ++ e),
          [.installCheck, .dockerfileCheck, .configureEcr])) ∧
    (is_ecr_repository image = true → env.configResult = .ok cfg → cfg.changed = false →
      finch_push_image env image = pushPhase env image [.installCheck, .configureEcr]) ∧
    (env.dockerfileEcr = .ok true → env.configResult = .ok cfg → cfg.changed = false →
      finch_build_container_image env =
        buildPhase env [.installCheck, .dockerfileCheck, .configureEcr]) := by
  refine ⟨fun hecr hcfg => ?_, fun hdf hcfg => ?_, fun hecr hcfg hch => ?_,
    fun hdf hcfg hch => ?_⟩
  · unfold finch_push_image
    rw [hinst]
    simp [hist, hecr, hcfg]
  · unfold finch_build_container_image
    rw [hinst]
    simp [hist, hdf, hcfg]
  · unfold finch_push_image
    rw [hinst]
    simp [hist, hecr, hcfg, hch]
  · unfold finch_build_container_image
    rw [hinst]
    simp [hist, hdf, hcfg, hch]

/-- Witness for C3 (amended): the raising configuration is fatal; the
error-status configuration is ignored and the push phase runs. -/
theorem claim_C3_witness :
    (finch_push_image cfgRaiseEnv ecrImg =
      (opErr ("Error pushing image: " ++ "boom"), [.installCheck, .configureEcr])) ∧
    (finch_push_image cfgStatusErrEnv ecrImg =
      pushPhase cfgStatusErrEnv ecrImg [.installCheck, .configureEcr]) :=
  ⟨(claim_C3 cfgRaiseEnv ecrImg (opOk "inst") "boom" ⟨"success", false⟩ rfl
      (by decide)).1 (by decide) rfl,
   (claim_C3 cfgStatusErrEnv ecrImg (opOk "inst") "x" ⟨"error", false⟩ rfl
      (by decide)).2.2.1 (by decide) rfl rfl⟩

/-- Claim C8: at every modelled raise point of a component, the outermost
boundary of the build, push and create-repo tools catches the exception and
returns an error result whose message is the tool's fixed prefix followed by
the exception's message (so the message is contained and nothing is raised
past the tool surface). -/
theorem claim_C8 (env : ServerEnv) (image appName : String) (region : Option String)
    (e : String) (i : OpResult) (cfg : ConfigResult) :
    (env.installResult = .error e →
      (finch_push_image env image).1 = opErr ("Error pushing image: " ++ e) ∧
      (finch_build_container_image env).1 = opErr ("Error building Docker image: " ++ e)) ∧
    (env.installResult = .ok i → ¬ i.status = "error" → is_ecr_repository image = true →
      env.configResult = .error e →
      (finch_push_image env image).1 = opErr ("Error pushing image: " ++ e)) ∧
    (env.installResult = .ok i → ¬ i.status = "error" → is_ecr_repository image = true →
      env.configResult = .ok cfg → cfg.changed = true → env.stopResult = .error e →
      (finch_push_image env image).1 = opErr ("Error pushing image: " ++ e)) ∧
    (env.installResult = .ok i → ¬ i.status = "error" → env.dockerfileEcr = .error e →
      (finch_build_container_image env).1 = opErr ("Error building Docker image: " ++ e)) ∧
    (env.installResult = .ok i → ¬ i.status = "error" → is_ecr_repository image = false →
      env.platformLinux = true → env.exec ["finch", "image", "inspect", image] = .error e →
      (finch_push_image env image).1 = opErr ("Error pushing image: " ++ e)) ∧
    (env.installResult = .ok i → ¬ i.status = "error" → env.dockerfileEcr = .ok false →
      env.platformLinux = true → env.buildResult = .error e →
      (finch_build_container_image env).1 = opErr ("Error building Docker image: " ++ e)) ∧
    (env.createRepo appName region true "IMMUTABLE" = .error e →
      (finch_create_ecr_repo env appName region).1 =
        opErr ("Error checking/creating ECR repository: " ++ e)) ∧
    (∀ p : String, (opErr (p ++ e)).message.data = p.data ++ e.data) := by
  refine ⟨fun hi => ?_, fun hi hs hecr hc => ?_, fun hi hs hecr hc hch hstp => ?_,
    fun hi hs hdf => ?_, fun hi hs hecr hl hx => ?_, fun hi hs hdf hl hb => ?_,
    fun hc => ?_, fun p => ?_⟩
  · constructor
    · unfold finch_push_image; rw [hi]
    · unfold finch_build_container_image; rw [hi]
  · unfold finch_push_image
    rw [hi]
    simp [hs, hecr, hc]
  · unfold finch_push_image
    rw [hi]
    simp [hs, hecr, hc, hch, hstp]
  · unfold finch_build_container_image
    rw [hi]
    simp [hs, hdf]
  · unfold finch_push_image
    rw [hi]
    simp only [hs, if_neg, hecr, Bool.false_eq_true, if_false]
    unfold pushPhase ensure_vm_running push_image get_image_hash
    rw [hl]
    simp [hx, hs]
    rfl
  · unfold finch_build_container_image
    rw [hi]
    simp only [hs, if_neg, Bool.false_eq_true, if_false, hdf]
    unfold buildPhase ensure_vm_running
    rw [hl]
    simp [hb, hs]
    rfl
  · unfold finch_create_ecr_repo
    rw [hc]
  · simp [opErr, String.data_append]

/-- Witness for C8 at the raising environments. -/
theorem claim_C8_witness :
    ((finch_push_image instRaiseEnv ecrImg).1 =
      opErr ("Error pushing image: " ++ "boom") ∧
     (finch_build_container_image instRaiseEnv).1 =
      opErr ("Error building Docker image: " ++ "boom")) ∧
    ((finch_push_image cfgRaiseEnv ecrImg).1 =
      opErr ("Error pushing image: " ++ "boom")) ∧
    ((finch_create_ecr_repo createRaiseEnv "app" none).1 =
      opErr ("Error checking/creating ECR repository: " ++ "boom")) :=
  ⟨(claim_C8 instRaiseEnv ecrImg "app" none "boom" (opOk "inst") ⟨"success", false⟩).1 rfl,
   (claim_C8 cfgRaiseEnv ecrImg "app" none "boom" (opOk "inst") ⟨"success", false⟩).2.1
      rfl (by decide) (by decide) rfl,
   (claim_C8 createRaiseEnv ecrImg "app" none "boom" (opOk "inst") ⟨"success", false⟩).2.2.2.2.2.2.1
      rfl⟩

/-- Claim C9: the redaction filter is frame-preserving: it always returns
`True`, keeps the number and order of positional arguments, modifies only the
message and the string-typed argument entries (each string argument is
rewritten through the URL-credential pattern alone, since the argument loop
substitutes into the original value on every iteration), leaves non-string
entries unchanged, and leaves a non-string message unchanged. -/
theorem claim_C9 (r : LogRecord) :
    (SensitiveDataFilter r).2 = true ∧
    (SensitiveDataFilter r).1.args.length = r.args.length ∧
    (∀ i n, r.args.get? i = some (.other n) →
      (SensitiveDataFilter r).1.args.get? i = some (.other n)) ∧
    (∀ i s, r.args.get? i = some (.str s) →
      (SensitiveDataFilter r).1.args.get? i = some (.str (redactArg s))) ∧
    (∀ n, r.msg = .other n → (SensitiveDataFilter r).1.msg = .other n) := by
  unfold SensitiveDataFilter
  by_cases he : r.args.isEmpty
  · have hnil : r.args = [] := List.isEmpty_iff.1 he
    refine ⟨rfl, by simp [he], ?_, ?_, ?_⟩
    · intro i n h; rw [hnil] at h; simp at h
    · intro i s h; rw [hnil] at h; simp at h
    · intro n h; rw [h]
  · refine ⟨rfl, by simp [he], ?_, ?_, ?_⟩
    · intro i n h
      simp only [he, if_false, Bool.false_eq_true]
      rw [List.get?_eq_getElem?, List.getElem?_map, ← List.get?_eq_getElem?, h]
      rfl
    · intro i s h
      simp only [he, if_false, Bool.false_eq_true]
      rw [List.get?_eq_getElem?, List.getElem?_map, ← List.get?_eq_getElem?, h]
      rfl
    · intro n h; rw [h]

/-- Witness for C9 at a concrete two-argument record. -/
theorem claim_C9_witness :
    (SensitiveDataFilter ⟨.str "m", [.other 5, .str "x"]⟩).2 = true ∧
    (SensitiveDataFilter ⟨.str "m", [.other 5, .str "x"]⟩).1.args.get? 0 = some (.other 5) ∧
    (SensitiveDataFilter ⟨.str "m", [.other 5, .str "x"]⟩).1.args.get? 1 =
      some (.str (redactArg "x")) :=
  ⟨(claim_C9 ⟨.str "m", [.other 5, .str "x"]⟩).1,
   (claim_C9 ⟨.str "m", [.other 5, .str "x"]⟩).2.2.1 0 5 rfl,
   (claim_C9 ⟨.str "m", [.other 5, .str "x"]⟩).2.2.2.1 1 "x" rfl⟩

/-! ### Generic list lemmas for the redaction analysis -/

theorem infLen {w l : List Char} (h : w <:+: l) : w.length ≤ l.length := by
  obtain ⟨s, t, rfl⟩ := h
  simp [List.length_append]
  omega

theorem infixTrans {a b c : List Char} (h1 : a <:+: b) (h2 : b <:+: c) : a <:+: c := by
  obtain ⟨s, t, rfl⟩ := h1
  obtain ⟨u, v, rfl⟩ := h2
  exact ⟨u ++ s, t ++ v, by simp⟩

theorem sufInfix {a b : List Char} (h : a <:+ b) : a <:+: b := by
  obtain ⟨t, rfl⟩ := h
  exact ⟨t, [], by simp⟩

theorem prefInfix {a b : List Char} (h : a <+: b) : a <:+: b := by
  obtain ⟨t, rfl⟩ := h
  exact ⟨[], t, by simp⟩

theorem sufOfSufInfix {a b c : List Char} (h1 : a <:+ b) (h2 : b <:+: c) : a <:+: c :=
  infixTrans (sufInfix h1) h2

theorem prefSplit {w x y : List Char} (h : w <+: x ++ y) :
    w <+: x ∨ ∃ w2, w = x ++ w2 ∧ w2 <+: y := by
  induction x generalizing w with
  | nil => exact Or.inr ⟨w, rfl, by simpa using h⟩
  | cons a x' ih =>
    cases w with
    | nil => exact Or.inl ⟨a :: x', rfl⟩
    | cons b w' =>
      obtain ⟨t, ht⟩ := h
      rw [List.cons_append] at ht
      have hb : b = a := by injection ht
      have ht' : w' ++ t = x' ++ y := by injection ht
      rcases ih ⟨t, ht'⟩ with hp | ⟨w2, hw2, hpy⟩
      · left
        obtain ⟨u, hu⟩ := hp
        exact ⟨u, by rw [hb, List.cons_append, hu]⟩
      · right
        exact ⟨w2, by rw [hb, List.cons_append, hw2], hpy⟩

theorem infSplit {w x y : List Char} (h : w <:+: x ++ y) :
    w <:+: x ∨ w <:+: y ∨
    ∃ w1 w2, w = w1 ++ w2 ∧ w1 ≠ [] ∧ w2 ≠ [] ∧ w1 <:+ x ∧ w2 <+: y := by
  induction x generalizing w with
  | nil => exact Or.inr (Or.inl (by simpa using h))
  | cons a x' ih =>
    obtain ⟨u, v, huv⟩ := h
    cases u with
    | nil =>
      cases w with
      | nil => exact Or.inl ⟨[], a :: x', by simp⟩
      | cons b w' =>
        rw [List.nil_append, List.cons_append] at huv
        have hb : b = a := by injection huv
        have huv' : w' ++ v = x' ++ y := by injection huv
        rcases prefSplit (⟨v, huv'⟩ : w' <+: x' ++ y) with hp | ⟨w2, hw2, hpy⟩
        · left
          obtain ⟨t, ht⟩ := hp
          exact ⟨[], t, by rw [List.nil_append, hb, List.cons_append, ht]⟩
        · by_cases hw2e : w2 = []
          · subst hw2e
            left
            exact ⟨[], [], by
              rw [List.nil_append, List.append_nil, hb, hw2, List.append_nil]⟩
          · right; right
            refine ⟨a :: x', w2, ?_, by simp, hw2e, ⟨[], rfl⟩, hpy⟩
            rw [hb, hw2]
            rfl
    | cons b u' =>
      rw [List.cons_append, List.cons_append] at huv
      have huv' : u' ++ w ++ v = x' ++ y := by injection huv
      rcases ih ⟨u', v, huv'⟩ with hi | hi | ⟨w1, w2, hw, hne1, hne2, hsx, hpy⟩
      · left
        obtain ⟨s, t, hst⟩ := hi
        exact ⟨a :: s, t, by
          rw [show (a :: s) ++ w ++ t = a :: (s ++ w ++ t) from rfl, hst]⟩
      · exact Or.inr (Or.inl hi)
      · right; right
        refine ⟨w1, w2, hw, hne1, hne2, ?_, hpy⟩
        obtain ⟨t, ht⟩ := hsx
        exact ⟨a :: t, by rw [List.cons_append, ht]⟩

theorem sufSingleton {w : List Char} {c : Char} (h : w <:+ [c]) (hne : w ≠ []) : w = [c] := by
  obtain ⟨t, ht⟩ := h
  cases t with
  | nil => simpa using ht
  | cons d t' =>
    exfalso
    have hlen := congrArg List.length ht
    simp only [List.length_append, List.length_cons, List.length_singleton,
      List.length_nil] at hlen
    exact hne (List.eq_nil_of_length_eq_zero (by omega))

theorem allOfInfix {p : Char → Bool} {w l : List Char} (h : w <:+: l)
    (ha : l.all p = true) : w.all p = true := by
  obtain ⟨s, t, rfl⟩ := h
  simp only [List.all_append, Bool.and_eq_true] at ha
  exact ha.1.2

theorem allOfAppendLeft {p : Char → Bool} {a b : List Char}
    (h : (a ++ b).all p = true) : a.all p = true := by
  simp only [List.all_append, Bool.and_eq_true] at h
  exact h.1

theorem allOfAppendRight {p : Char → Bool} {a b : List Char}
    (h : (a ++ b).all p = true) : b.all p = true := by
  simp only [List.all_append, Bool.and_eq_true] at h
  exact h.2

/-! ### Longest-run bounds and Boolean bridges -/

theorem maxRunA_cons (p : Char → Bool) (c : Char) (cs : List Char) (cur best : Nat) :
    maxRunA p cur best (c :: cs) =
      if p c then maxRunA p (cur + 1) best cs else maxRunA p 0 (max cur best) cs := rfl

theorem maxRunA_ge_best (p : Char → Bool) :
    ∀ (l : List Char) (cur best : Nat), best ≤ maxRunA p cur best l := by
  intro l
  induction l with
  | nil => intro cur best; exact Nat.le_max_right cur best
  | cons c cs ih =>
    intro cur best
    unfold maxRunA
    by_cases h : p c = true
    · simp only [h, if_true]
      exact ih (cur + 1) best
    · simp only [h, if_false, Bool.false_eq_true]
      exact Nat.le_trans (Nat.le_max_right cur best) (ih 0 (max cur best))

theorem maxRunA_ge_cur (p : Char → Bool) :
    ∀ (l : List Char) (cur best : Nat), cur ≤ maxRunA p cur best l := by
  intro l
  induction l with
  | nil => intro cur best; exact Nat.le_max_left cur best
  | cons c cs ih =>
    intro cur best
    unfold maxRunA
    by_cases h : p c = true
    · simp only [h, if_true]
      exact Nat.le_trans (Nat.le_succ cur) (ih (cur + 1) best)
    · simp only [h, if_false, Bool.false_eq_true]
      exact Nat.le_trans (Nat.le_max_left cur best) (maxRunA_ge_best p cs 0 (max cur best))

theorem maxRunA_mono (p : Char → Bool) :
    ∀ (l : List Char) (c1 c2 b1 b2 : Nat), c1 ≤ c2 → b1 ≤ b2 →
      maxRunA p c1 b1 l ≤ maxRunA p c2 b2 l := by
  intro l
  induction l with
  | nil => intro c1 c2 b1 b2 hc hb; exact max_le_max hc hb
  | cons c cs ih =>
    intro c1 c2 b1 b2 hc hb
    unfold maxRunA
    by_cases h : p c = true
    · simp only [h, if_true]
      exact ih (c1 + 1) (c2 + 1) b1 b2 (Nat.succ_le_succ hc) hb
    · simp only [h, if_false, Bool.false_eq_true]
      exact ih 0 0 (max c1 b1) (max c2 b2) (Nat.le_refl 0) (max_le_max hc hb)

theorem maxRunA_pref (p : Char → Bool) :
    ∀ (w l : List Char) (cur best : Nat), w.all p = true → w <+: l →
      cur + w.length ≤ maxRunA p cur best l := by
  intro w
  induction w with
  | nil =>
    intro l cur best _ _
    have := maxRunA_ge_cur p l cur best
    simp only [List.length_nil]
    omega
  | cons c w' ih =>
    intro l cur best hall hp
    obtain ⟨t, ht⟩ := hp
    rw [List.cons_append] at ht
    subst ht
    simp only [List.all_cons, Bool.and_eq_true] at hall
    unfold maxRunA
    simp only [hall.1, if_true]
    have := ih (w' ++ t) (cur + 1) best hall.2 ⟨t, rfl⟩
    simp only [List.length_cons]
    omega

theorem maxRunA_infix (p : Char → Bool) {w l : List Char}
    (h : w <:+: l) (hall : w.all p = true) : w.length ≤ maxRunA p 0 0 l := by
  obtain ⟨u, v, huv⟩ := h
  induction u generalizing l with
  | nil =>
    rw [← huv, List.nil_append]
    have := maxRunA_pref p w (w ++ v) 0 0 hall ⟨v, rfl⟩
    omega
  | cons a u' ih =>
    rw [← huv]
    have hrec : w.length ≤ maxRunA p 0 0 (u' ++ w ++ v) := ih rfl
    simp only [List.cons_append]
    rw [maxRunA_cons]
    by_cases ha : p a = true
    · rw [if_pos ha]
      exact Nat.le_trans hrec (maxRunA_mono p (u' ++ w ++ v) 0 1 0 0 (by omega) (Nat.le_refl 0))
    · rw [if_neg (by simpa using ha)]
      exact Nat.le_trans hrec
        (maxRunA_mono p (u' ++ w ++ v) 0 0 0 (max 0 0) (Nat.le_refl 0) (by omega))

theorem no21_of_maxRun {l : List Char} (h : maxRunA keyIdCh 0 0 l ≤ 20) : no21 l := by
  intro w h21 hall hinf
  have := maxRunA_infix keyIdCh hinf hall
  omega

theorem no20_of_maxRun {l : List Char} (h : maxRunA keyIdCh 0 0 l ≤ 19) : no20 l := by
  intro w h20 hall hinf
  have := maxRunA_infix keyIdCh hinf hall
  omega

theorem startsRSb_iff (w : List Char) : startsRSb w = true ↔ startsRS w := by
  unfold startsRSb startsRS
  rw [List.any_eq_true]
  constructor
  · rintro ⟨k, hk, hp⟩
    exact ⟨k, List.mem_range.1 hk, List.isPrefixOf_iff_prefix.1 hp⟩
  · rintro ⟨k, hk, hp⟩
    exact ⟨k, List.mem_range.2 hk, List.isPrefixOf_iff_prefix.2 hp⟩

theorem occursIn_iff (w l : List Char) : occursIn w l = true ↔ w <:+: l := by
  unfold occursIn
  rw [List.any_eq_true]
  constructor
  · rintro ⟨t, ht, hp⟩
    exact infixTrans (prefInfix (List.isPrefixOf_iff_prefix.1 hp))
      (sufInfix ((List.mem_tails t l).1 ht))
  · rintro ⟨s, t, hst⟩
    refine ⟨w ++ t, (List.mem_tails (w ++ t) l).2 ⟨s, by rw [← hst, List.append_assoc]⟩, ?_⟩
    exact List.isPrefixOf_iff_prefix.2 ⟨t, rfl⟩

theorem replSufOK_spec {repl : List Char} (h : replSufOK repl = true) :
    ∀ w1, w1 <:+ repl → w1 ≠ [] → w1.all keyIdCh = true →
      ∃ k, k < 8 ∧ w1 = redTail.drop k := by
  unfold replSufOK at h
  rw [List.all_eq_true] at h
  intro w1 hs hne hall
  have hmem : w1 ∈ repl.tails := (List.mem_tails w1 repl).2 hs
  have hh := h w1 hmem
  simp only [Bool.or_eq_true, List.any_eq_true] at hh
  rcases hh with (h1 | h2) | ⟨k, hk, he⟩
  · exact absurd (List.isEmpty_iff.1 h1) hne
  · rw [hall] at h2; simp at h2
  · exact ⟨k, List.mem_range.1 hk, by simpa using he⟩

/-! ### Structure of the fixed-length-run substitution (patterns 1 and 2) -/

theorem runSubA_nil (p : Char → Bool) (n : Nat) (m acc : List Char) :
    runSubA p n m acc [] = flushRun n m acc := rfl

theorem runSubA_cons (p : Char → Bool) (n : Nat) (m acc : List Char) (c : Char)
    (cs : List Char) :
    runSubA p n m acc (c :: cs) =
      if p c then runSubA p n m (acc ++ [c]) cs
      else flushRun n m acc ++ c :: runSubA p n m [] cs := rfl

theorem runSubA_consume (p : Char → Bool) (n : Nat) (m : List Char) :
    ∀ (r acc b : List Char), r.all p = true →
      runSubA p n m acc (r ++ b) = runSubA p n m (acc ++ r) b := by
  intro r
  induction r with
  | nil => intro acc b _; simp
  | cons c r' ih =>
    intro acc b hall
    simp only [List.all_cons, Bool.and_eq_true] at hall
    rw [List.cons_append, runSubA_cons, if_pos hall.1, ih (acc ++ [c]) b hall.2]
    rw [show acc ++ [c] ++ r' = acc ++ c :: r' by simp]

theorem runSubA_break (p : Char → Bool) (n : Nat) (m : List Char) (hn : n ≠ 0)
    {c : Char} (hc : p c = false) :
    ∀ (a rest acc : List Char),
      runSubA p n m acc (a ++ c :: rest) =
        runSubA p n m acc (a ++ [c]) ++ runSubA p n m [] rest := by
  have hfl : flushRun n m [] = [] := by
    unfold flushRun
    rw [if_neg (by simpa using fun he => hn he.symm)]
  intro a
  induction a with
  | nil =>
    intro rest acc
    rw [List.nil_append, List.nil_append, runSubA_cons, if_neg (by simp [hc]), runSubA_cons,
      if_neg (by simp [hc]), runSubA_nil, hfl]
    simp
  | cons d a' ih =>
    intro rest acc
    simp only [List.cons_append]
    rw [runSubA_cons, runSubA_cons]
    by_cases hd : p d = true
    · rw [if_pos hd, if_pos hd, ih rest (acc ++ [d])]
    · rw [if_neg (by simp [hd]), if_neg (by simp [hd]), ih rest []]
      simp [List.append_assoc]

theorem runSubA_no20 (p q : Char → Bool) (n : Nat) (m : List Char)
    (Hpq : ∀ c, q c = true → p c = true)
    (Hm : ∀ w : List Char, w.length = 20 → w.all q = true → ¬ w <:+: m) :
    ∀ (l acc : List Char), acc.all p = true →
      (∀ r, r <:+: (acc ++ l) → r.all p = true → r.length ≠ n →
        ∀ w : List Char, w.length = 20 → w.all q = true → ¬ w <:+: r) →
      ∀ w : List Char, w.length = 20 → w.all q = true → ¬ w <:+: runSubA p n m acc l := by
  intro l
  induction l with
  | nil =>
    intro acc hacc Hrun w h20 hq hinf
    rw [runSubA_nil] at hinf
    unfold flushRun at hinf
    by_cases hlen : acc.length = n
    · rw [if_pos hlen] at hinf; exact Hm w h20 hq hinf
    · rw [if_neg hlen] at hinf
      exact Hrun acc (prefInfix ⟨[], rfl⟩) hacc hlen w h20 hq hinf
  | cons c cs ih =>
    intro acc hacc Hrun w h20 hq hinf
    rw [runSubA_cons] at hinf
    by_cases hc : p c = true
    · rw [if_pos hc] at hinf
      refine ih (acc ++ [c]) ?_ ?_ w h20 hq hinf
      · rw [List.all_append]
        simp [hacc, hc]
      · intro r hr
        apply Hrun r
        rw [show (acc ++ [c]) ++ cs = acc ++ c :: cs by simp] at hr
        exact hr
    · rw [if_neg (by simp [hc])] at hinf
      have hqc : ¬ q c = true := fun hz => hc (Hpq c hz)
      have hIH : ∀ w : List Char, w.length = 20 → w.all q = true →
          ¬ w <:+: runSubA p n m [] cs := by
        refine ih [] rfl ?_
        intro r hr
        apply Hrun r
        rw [List.nil_append] at hr
        exact infixTrans hr ⟨acc ++ [c], [], by simp⟩
      rcases infSplit hinf with h1 | h1 | ⟨w1, w2, hw, hne1, hne2, hsuf, hpref⟩
      · unfold flushRun at h1
        by_cases hlen : acc.length = n
        · rw [if_pos hlen] at h1; exact Hm w h20 hq h1
        · rw [if_neg hlen] at h1
          exact Hrun acc (prefInfix ⟨c :: cs, rfl⟩) hacc hlen w h20 hq h1
      · rcases infSplit (show w <:+: [c] ++ runSubA p n m [] cs by simpa using h1) with
          h2 | h2 | ⟨w1, w2, hw, hne1, hne2, hsuf, hpref⟩
        · have := infLen h2
          simp at this
          omega
        · exact hIH w h20 hq h2
        · have hw1 : w1 = [c] := sufSingleton hsuf hne1
          rw [hw, hw1] at hq
          have : q c = true := by
            simp only [List.all_append, List.all_cons, Bool.and_eq_true] at hq
            exact hq.1.1
          exact hqc this
      · obtain ⟨t, ht⟩ := hpref
        cases w2 with
        | nil => exact hne2 rfl
        | cons e w2' =>
          have he : e = c := by
            rw [List.cons_append] at ht
            injection ht
          have : q e = true := by
            have := allOfAppendRight (p := q) (by rw [← hw]; exact hq)
            simp only [List.all_cons, Bool.and_eq_true] at this
            exact this.1
          rw [he] at this
          exact hqc this

theorem runSub_marker (p : Char → Bool) (n : Nat) (m : List Char) (hn : n ≠ 0)
    (tok a b : List Char) (htok : tok.all p = true) (hlen : tok.length = n)
    (ha : a = [] ∨ ∃ a' c, a = a' ++ [c] ∧ p c = false)
    (hb : b = [] ∨ ∃ c b', b = c :: b' ∧ p c = false) :
    m <:+: runSub p n m (a ++ tok ++ b) := by
  have hflush : flushRun n m tok = m := by unfold flushRun; rw [if_pos hlen]
  have hpart : ∃ x, runSubA p n m [] (tok ++ b) = m ++ x := by
    have hcons : runSubA p n m [] (tok ++ b) = runSubA p n m tok b := by
      have := runSubA_consume p n m tok [] b htok
      simpa using this
    rcases hb with rfl | ⟨c, b', rfl, hcb⟩
    · exact ⟨[], by rw [hcons, runSubA_nil, hflush, List.append_nil]⟩
    · refine ⟨c :: runSubA p n m [] b', ?_⟩
      rw [hcons, runSubA_cons, if_neg (by simp [hcb]), hflush]
  obtain ⟨x, hx⟩ := hpart
  unfold runSub
  rcases ha with rfl | ⟨a', c, rfl, hca⟩
  · rw [List.nil_append, hx]
    exact ⟨[], x, by simp⟩
  · rw [show (a' ++ [c]) ++ tok ++ b = a' ++ c :: (tok ++ b) by simp,
      runSubA_break p n m hn hca a' (tok ++ b) [], hx]
    exact ⟨runSubA p n m [] (a' ++ [c]), x, by simp⟩

/-! ### Suffix utilities and matcher consumption bounds -/

theorem sufTrans {a b c : List Char} (h1 : a <:+ b) (h2 : b <:+ c) : a <:+ c := by
  obtain ⟨t, rfl⟩ := h1
  obtain ⟨u, rfl⟩ := h2
  exact ⟨u ++ t, by simp⟩

theorem sufLen {a b : List Char} (h : a <:+ b) : a.length ≤ b.length := by
  obtain ⟨t, rfl⟩ := h
  simp

theorem dwSuffix (p : Char → Bool) : ∀ l : List Char, l.dropWhile p <:+ l := by
  intro l
  induction l with
  | nil => exact ⟨[], rfl⟩
  | cons c cs ih =>
    rw [List.dropWhile_cons]
    by_cases hc : p c = true
    · simp only [hc, if_true]
      exact sufTrans ih ⟨[c], rfl⟩
    · simp only [hc, if_false, Bool.false_eq_true]
      exact ⟨[], rfl⟩

theorem ciStrip_suffix : ∀ (pat l r : List Char), ciStrip pat l = some r →
    r <:+ l ∧ l.length = pat.length + r.length := by
  intro pat
  induction pat with
  | nil =>
    intro l r h
    simp only [ciStrip, Option.some.injEq] at h
    subst h
    exact ⟨⟨[], rfl⟩, by simp⟩
  | cons x ps ih =>
    intro l r h
    cases l with
    | nil => simp [ciStrip] at h
    | cons c cs =>
      simp only [ciStrip] at h
      split at h
      · obtain ⟨hs, hlen⟩ := ih cs r h
        exact ⟨sufTrans hs ⟨[c], rfl⟩, by simp [hlen]; omega⟩
      · exact absurd h (by simp)

theorem scanVal_suffix : ∀ (l r : List Char), scanVal l = some r →
    r <:+ l ∧ r.length < l.length := by
  intro l
  induction l with
  | nil => intro r h; simp [scanVal] at h
  | cons c cs ih =>
    intro r h
    simp only [scanVal] at h
    split at h
    · simp only [Option.some.injEq] at h
      subst h
      exact ⟨⟨[c], rfl⟩, by simp⟩
    · split at h
      · exact absurd h (by simp)
      · obtain ⟨hs, hlen⟩ := ih r h
        exact ⟨sufTrans hs ⟨[c], rfl⟩, by simp; omega⟩

theorem keyTail_cons (c : Char) (cs : List Char) :
    keyTail (c :: cs) =
      if c = '=' || c = ':' then
        match cs.dropWhile wsChar with
        | [] => none
        | q :: cs3 => if quoteCh q then scanVal cs3 else none
      else none := rfl

theorem keyTail_suffix : ∀ (l r : List Char), keyTail l = some r →
    r <:+ l ∧ r.length < l.length := by
  intro l r h
  cases l with
  | nil => simp [keyTail] at h
  | cons c cs =>
    rw [keyTail_cons] at h
    by_cases hc : (c = '=' || c = ':') = true
    · rw [if_pos hc] at h
      cases hdw : cs.dropWhile wsChar with
      | nil => rw [hdw] at h; simp at h
      | cons q cs3 =>
        rw [hdw] at h
        have h' : (if quoteCh q = true then scanVal cs3 else none) = some r := h
        by_cases hq : quoteCh q = true
        · rw [if_pos hq] at h'
          obtain ⟨hs, hlen⟩ := scanVal_suffix cs3 r h'
          have h1 : cs3 <:+ cs := by
            have hd := dwSuffix wsChar cs
            rw [hdw] at hd
            exact sufTrans ⟨[q], rfl⟩ hd
          have h2 : (q :: cs3).length ≤ cs.length := by
            rw [← hdw]; exact sufLen (dwSuffix wsChar cs)
          refine ⟨sufTrans (sufTrans hs h1) ⟨[c], rfl⟩, ?_⟩
          have := sufLen h1
          simp at h2 ⊢
          omega
        · rw [if_neg hq] at h'; exact absurd h' (by simp)
    · rw [if_neg hc] at h; exact absurd h (by simp)

theorem tryKw_suffix (kw : List Char) : ∀ (l r : List Char), tryKw kw l = some r →
    r <:+ l ∧ r.length < l.length := by
  intro l r h
  unfold tryKw at h
  cases hci : ciStrip kw l with
  | none => rw [hci] at h; simp at h
  | some r1 =>
    rw [hci] at h
    obtain ⟨hs1, hlen1⟩ := ciStrip_suffix kw l r1 hci
    obtain ⟨hs2, hlen2⟩ := keyTail_suffix r1 r h
    exact ⟨sufTrans hs2 hs1, by omega⟩

theorem tryApi_suffix : ∀ (l r : List Char), tryApi l = some r →
    r <:+ l ∧ r.length < l.length := by
  intro l r h
  unfold tryApi at h
  cases hci : ciStrip "api".data l with
  | none => rw [hci] at h; simp at h
  | some r0 =>
    rw [hci] at h
    obtain ⟨hs0, hlen0⟩ := ciStrip_suffix "api".data l r0 hci
    cases r0 with
    | nil => simp at h
    | cons c cs =>
      simp only at h
      split at h
      · cases hk : ciStrip "key".data cs with
        | none => rw [hk] at h; simp at h
        | some r2 =>
          rw [hk] at h
          obtain ⟨hsk, hlenk⟩ := ciStrip_suffix "key".data cs r2 hk
          obtain ⟨hs2, hlen2⟩ := keyTail_suffix r2 r h
          have hcs : cs <:+ l := sufTrans ⟨[c], rfl⟩ hs0
          refine ⟨sufTrans (sufTrans hs2 hsk) hcs, ?_⟩
          have := sufLen hcs
          simp at hlen0
          omega
      · cases hk : ciStrip "key".data (c :: cs) with
        | none => rw [hk] at h; simp at h
        | some r2 =>
          rw [hk] at h
          obtain ⟨hsk, hlenk⟩ := ciStrip_suffix "key".data (c :: cs) r2 hk
          obtain ⟨hs2, hlen2⟩ := keyTail_suffix r2 r h
          refine ⟨sufTrans (sufTrans hs2 hsk) hs0, ?_⟩
          simp at hlen0 hlenk
          omega

/-! ### Invariant preservation by the key/value substitution passes -/

theorem subKeyAux_nil (m : List Char → Option (List Char)) (repl : List Char) :
    ∀ fuel, subKeyAux m repl fuel [] = [] := by
  intro fuel
  cases fuel <;> rfl

theorem subKeyAux_succ (m : List Char → Option (List Char)) (repl : List Char)
    (fuel : Nat) (c : Char) (cs : List Char) :
    subKeyAux m repl (fuel + 1) (c :: cs) =
      match m (c :: cs) with
      | some rest => repl ++ subKeyAux m repl fuel rest
      | none => c :: subKeyAux m repl fuel cs := rfl

theorem redInv_nil : redInv [] := by
  intro w h20 _ hinf
  have hle := infLen hinf
  rw [h20] at hle
  simp at hle

theorem subKeyAux_qpref (m : List Char → Option (List Char)) (repl : List Char)
    (Hhead : ∃ c cs, repl = c :: cs ∧ keyIdCh c = false) :
    ∀ (fuel : Nat) (l : List Char), l.length ≤ fuel →
      ∀ w, w <+: subKeyAux m repl fuel l → w.all keyIdCh = true → w <+: l := by
  intro fuel
  induction fuel with
  | zero =>
    intro l hl w hw _
    have hnil : l = [] := List.eq_nil_of_length_eq_zero (by omega)
    subst hnil
    rw [subKeyAux_nil] at hw
    obtain ⟨t, ht⟩ := hw
    have : w = [] := by
      cases w with
      | nil => rfl
      | cons a b => simp at ht
    subst this
    exact ⟨[], rfl⟩
  | succ f ih =>
    intro l hl w hw hq
    cases l with
    | nil =>
      rw [subKeyAux_nil] at hw
      obtain ⟨t, ht⟩ := hw
      have : w = [] := by
        cases w with
        | nil => rfl
        | cons a b => simp at ht
      subst this
      exact ⟨[], rfl⟩
    | cons c cs =>
      rw [subKeyAux_succ] at hw
      cases hm : m (c :: cs) with
      | some rest =>
        rw [hm] at hw
        obtain ⟨d, ds, hrepl, hdq⟩ := Hhead
        cases w with
        | nil => exact ⟨c :: cs, rfl⟩
        | cons e w' =>
          exfalso
          obtain ⟨t, ht⟩ := hw
          rw [hrepl] at ht
          have ht2 : e :: (w' ++ t) = d :: (ds ++ subKeyAux m (d :: ds) f rest) := ht
          have he : e = d := by injection ht2
          simp only [List.all_cons, Bool.and_eq_true] at hq
          rw [he] at hq
          rw [hq.1] at hdq
          exact absurd hdq (by simp)
      | none =>
        rw [hm] at hw
        cases w with
        | nil => exact ⟨c :: cs, rfl⟩
        | cons e w' =>
          obtain ⟨t, ht⟩ := hw
          rw [List.cons_append] at ht
          have he : e = c := by injection ht
          have ht' : w' ++ t = subKeyAux m repl f cs := by injection ht
          simp only [List.all_cons, Bool.and_eq_true] at hq
          have hw' : w' <+: cs := by
            simp only [List.length_cons] at hl
            exact ih cs (by omega) w' ⟨t, ht'⟩ hq.2
          obtain ⟨u, hu⟩ := hw'
          exact ⟨u, by rw [he, List.cons_append, hu]⟩

theorem subKeyAux_inv (m : List Char → Option (List Char)) (repl : List Char)
    (Hm1 : ∀ l r, m l = some r → r <:+ l ∧ r.length < l.length)
    (Hhead : ∃ c cs, repl = c :: cs ∧ keyIdCh c = false)
    (Hrepl20 : ∀ w : List Char, w.length = 20 → w.all keyIdCh = true → ¬ w <:+: repl)
    (HreplSuf : ∀ w1, w1 <:+ repl → w1 ≠ [] → w1.all keyIdCh = true →
      ∃ k, k < 8 ∧ w1 = redTail.drop k) :
    ∀ (fuel : Nat) (l : List Char), l.length ≤ fuel → redInv l →
      redInv (subKeyAux m repl fuel l) := by
  intro fuel
  induction fuel with
  | zero =>
    intro l hl _
    have hnil : l = [] := List.eq_nil_of_length_eq_zero (by omega)
    subst hnil
    rw [subKeyAux_nil]
    exact redInv_nil
  | succ f ih =>
    intro l hl hInv
    cases l with
    | nil => rw [subKeyAux_nil]; exact redInv_nil
    | cons c cs =>
      rw [subKeyAux_succ]
      cases hm : m (c :: cs) with
      | some rest =>
        obtain ⟨hsuf, hlt⟩ := Hm1 (c :: cs) rest hm
        have hInvRest : redInv rest := fun w h20 hq hf =>
          hInv w h20 hq (infixTrans hf (sufInfix hsuf))
        have hlenr : rest.length ≤ f := by
          simp only [List.length_cons] at hl hlt
          omega
        have hOut := ih rest hlenr hInvRest
        intro w h20 hq hinf
        rcases infSplit hinf with h1 | h1 | ⟨w1, w2, hw, hne1, hne2, hsufr, hpref⟩
        · exact absurd h1 (Hrepl20 w h20 hq)
        · exact hOut w h20 hq h1
        · obtain ⟨k, hk, hw1⟩ := HreplSuf w1 hsufr hne1
            (allOfAppendLeft (p := keyIdCh) (by rw [← hw]; exact hq))
          exact ⟨k, hk, by rw [hw, ← hw1]; exact ⟨w2, rfl⟩⟩
      | none =>
        have hOut := ih cs (by simp only [List.length_cons] at hl; omega)
          (fun w h20 hq hf => hInv w h20 hq (infixTrans hf ⟨[c], [], by simp⟩))
        intro w h20 hq hinf
        rcases infSplit (show w <:+: [c] ++ subKeyAux m repl f cs by simpa using hinf) with
          h1 | h1 | ⟨w1, w2, hw, hne1, hne2, hsufr, hpref⟩
        · have := infLen h1
          simp at this
          omega
        · exact hOut w h20 hq h1
        · have hw1 : w1 = [c] := sufSingleton hsufr hne1
          have hq2 : w2.all keyIdCh = true :=
            allOfAppendRight (p := keyIdCh) (by rw [← hw]; exact hq)
          have hw2 : w2 <+: cs := subKeyAux_qpref m repl Hhead f cs
            (by simp only [List.length_cons] at hl; omega) w2 hpref hq2
          have hwin : w <+: c :: cs := by
            obtain ⟨u, hu⟩ := hw2
            refine ⟨u, ?_⟩
            rw [hw, hw1]
            simp only [List.cons_append, List.nil_append, List.append_assoc]
            rw [hu]
          exact hInv w h20 hq (prefInfix hwin)

/-! ### Invariant preservation by the URL-credential substitution pass -/

theorem tryUrlTail_spec (hasS : Bool) (y ins rest : List Char)
    (h : tryUrlTail hasS y = some (ins, rest)) :
    rest <:+ y ∧ rest.length < y.length ∧
    ins = (if hasS then "https://REDACTED:REDACTED@".data
           else "http://REDACTED:REDACTED@".data) := by
  unfold tryUrlTail at h
  split at h
  · simp at h
  · next r2 h5 =>
    have hy : y = "://".data ++ r2 := stripPrefixCh_eq _ _ _ h5
    by_cases hu : (r2.takeWhile urlCh).isEmpty = true
    · rw [if_pos hu] at h; simp at h
    · rw [if_neg hu] at h
      split at h
      · next r4 heq3 =>
        by_cases hpw : (r4.takeWhile urlCh).isEmpty = true
        · rw [if_pos hpw] at h; simp at h
        · rw [if_neg hpw] at h
          split at h
          · next r6 heq5 =>
            simp only [Option.some.injEq, Prod.mk.injEq] at h
            obtain ⟨hins, hrest⟩ := h
            have hr6r4 : r6 <:+ r4 := by
              have hd := dwSuffix urlCh r4
              rw [heq5] at hd
              exact sufTrans ⟨['@'], rfl⟩ hd
            have hr4r2 : r4 <:+ r2 := by
              have hd := dwSuffix urlCh r2
              rw [heq3] at hd
              exact sufTrans ⟨[':'], rfl⟩ hd
            have hr2y : r2 <:+ y := ⟨"://".data, hy.symm⟩
            subst hrest
            refine ⟨sufTrans (sufTrans hr6r4 hr4r2) hr2y, ?_, hins.symm⟩
            have l1 := sufLen hr6r4
            have l2 := sufLen hr4r2
            have l3 : y.length = 3 + r2.length := by
              rw [hy, List.length_append, show ("://".data).length = 3 from rfl]
            simp only [List.length_cons] at l1 l2
            omega
          · simp at h
      · simp at h

theorem tryUrl_spec (l ins rest : List Char) (h : tryUrl l = some (ins, rest)) :
    rest <:+ l ∧ rest.length < l.length ∧
    (ins = "https://REDACTED:REDACTED@".data ∨ ins = "http://REDACTED:REDACTED@".data) := by
  unfold tryUrl at h
  split at h
  · simp at h
  · next r0 h4 =>
    have hl : l = "http".data ++ r0 := stripPrefixCh_eq _ _ _ h4
    have hr0l : r0 <:+ l := ⟨"http".data, hl.symm⟩
    have hlen0 : l.length = 4 + r0.length := by
      rw [hl, List.length_append, show ("http".data).length = 4 from rfl]
    split at h
    · next cs =>
      obtain ⟨hs, hlen, hins⟩ := tryUrlTail_spec true cs ins rest h
      have h1 : cs <:+ 's' :: cs := ⟨['s'], rfl⟩
      refine ⟨sufTrans (sufTrans hs h1) hr0l, ?_, Or.inl (by simpa using hins)⟩
      simp only [List.length_cons] at hlen0
      omega
    · obtain ⟨hs, hlen, hins⟩ := tryUrlTail_spec false r0 ins rest h
      exact ⟨sufTrans hs hr0l, by omega, Or.inr (by simpa using hins)⟩

theorem subUrlAux_nil : ∀ fuel, subUrlAux fuel [] = [] := by
  intro fuel
  cases fuel <;> rfl

theorem subUrlAux_succ (fuel : Nat) (c : Char) (cs : List Char) :
    subUrlAux (fuel + 1) (c :: cs) =
      match tryUrl (c :: cs) with
      | some (ins, rest) => ins ++ subUrlAux fuel rest
      | none => c :: subUrlAux fuel cs := rfl

theorem subUrlAux_qpref :
    ∀ (fuel : Nat) (l : List Char), l.length ≤ fuel →
      ∀ w, w <+: subUrlAux fuel l → w.all keyIdCh = true → w <+: l := by
  intro fuel
  induction fuel with
  | zero =>
    intro l hl w hw _
    have hnil : l = [] := List.eq_nil_of_length_eq_zero (by omega)
    subst hnil
    rw [subUrlAux_nil] at hw
    obtain ⟨t, ht⟩ := hw
    cases w with
    | nil => exact ⟨[], rfl⟩
    | cons a b => simp at ht
  | succ f ih =>
    intro l hl w hw hq
    cases l with
    | nil =>
      rw [subUrlAux_nil] at hw
      obtain ⟨t, ht⟩ := hw
      cases w with
      | nil => exact ⟨[], rfl⟩
      | cons a b => simp at ht
    | cons c cs =>
      rw [subUrlAux_succ] at hw
      cases hm : tryUrl (c :: cs) with
      | some pair =>
        obtain ⟨ins, rest⟩ := pair
        rw [hm] at hw
        obtain ⟨-, -, hins⟩ := tryUrl_spec (c :: cs) ins rest hm
        cases w with
        | nil => exact ⟨c :: cs, rfl⟩
        | cons e w' =>
          exfalso
          obtain ⟨t, ht⟩ := hw
          have he : e = 'h' := by
            rcases hins with hA | hA <;>
            · rw [hA] at ht
              have ht2 := ht
              rw [List.cons_append] at ht2
              injection ht2
          simp only [List.all_cons, Bool.and_eq_true] at hq
          rw [he] at hq
          have : keyIdCh 'h' = true := hq.1
          simp [keyIdCh] at this
      | none =>
        rw [hm] at hw
        cases w with
        | nil => exact ⟨c :: cs, rfl⟩
        | cons e w' =>
          obtain ⟨t, ht⟩ := hw
          rw [List.cons_append] at ht
          have he : e = c := by injection ht
          have ht' : w' ++ t = subUrlAux f cs := by injection ht
          simp only [List.all_cons, Bool.and_eq_true] at hq
          have hw' : w' <+: cs := by
            simp only [List.length_cons] at hl
            exact ih cs (by omega) w' ⟨t, ht'⟩ hq.2
          obtain ⟨u, hu⟩ := hw'
          exact ⟨u, by rw [he, List.cons_append, hu]⟩

theorem subUrlAux_inv
    (HA20 : ∀ w : List Char, w.length = 20 → w.all keyIdCh = true →
      ¬ w <:+: "https://REDACTED:REDACTED@".data)
    (HB20 : ∀ w : List Char, w.length = 20 → w.all keyIdCh = true →
      ¬ w <:+: "http://REDACTED:REDACTED@".data)
    (HAsuf : ∀ w1, w1 <:+ "https://REDACTED:REDACTED@".data → w1 ≠ [] →
      w1.all keyIdCh = true → ∃ k, k < 8 ∧ w1 = redTail.drop k)
    (HBsuf : ∀ w1, w1 <:+ "http://REDACTED:REDACTED@".data → w1 ≠ [] →
      w1.all keyIdCh = true → ∃ k, k < 8 ∧ w1 = redTail.drop k) :
    ∀ (fuel : Nat) (l : List Char), l.length ≤ fuel → redInv l →
      redInv (subUrlAux fuel l) := by
  intro fuel
  induction fuel with
  | zero =>
    intro l hl _
    have hnil : l = [] := List.eq_nil_of_length_eq_zero (by omega)
    subst hnil
    rw [subUrlAux_nil]
    exact redInv_nil
  | succ f ih =>
    intro l hl hInv
    cases l with
    | nil => rw [subUrlAux_nil]; exact redInv_nil
    | cons c cs =>
      rw [subUrlAux_succ]
      cases hm : tryUrl (c :: cs) with
      | some pair =>
        obtain ⟨ins, rest⟩ := pair
        obtain ⟨hsuf, hlt, hins⟩ := tryUrl_spec (c :: cs) ins rest hm
        have hInvRest : redInv rest := fun w h20 hq hf =>
          hInv w h20 hq (infixTrans hf (sufInfix hsuf))
        have hlenr : rest.length ≤ f := by
          simp only [List.length_cons] at hl hlt
          omega
        have hOut := ih rest hlenr hInvRest
        intro w h20 hq hinf
        rcases infSplit hinf with h1 | h1 | ⟨w1, w2, hw, hne1, hne2, hsufr, hpref⟩
        · rcases hins with hA | hA <;> rw [hA] at h1
          · exact absurd h1 (HA20 w h20 hq)
          · exact absurd h1 (HB20 w h20 hq)
        · exact hOut w h20 hq h1
        · have hq1 := allOfAppendLeft (p := keyIdCh) (by rw [← hw]; exact hq)
          rcases hins with hA | hA <;> rw [hA] at hsufr
          · obtain ⟨k, hk, hw1⟩ := HAsuf w1 hsufr hne1 hq1
            exact ⟨k, hk, by rw [hw, ← hw1]; exact ⟨w2, rfl⟩⟩
          · obtain ⟨k, hk, hw1⟩ := HBsuf w1 hsufr hne1 hq1
            exact ⟨k, hk, by rw [hw, ← hw1]; exact ⟨w2, rfl⟩⟩
      | none =>
        have hOut := ih cs (by simp only [List.length_cons] at hl; omega)
          (fun w h20 hq hf => hInv w h20 hq (infixTrans hf ⟨[c], [], by simp⟩))
        intro w h20 hq hinf
        rcases infSplit (show w <:+: [c] ++ subUrlAux f cs by simpa using hinf) with
          h1 | h1 | ⟨w1, w2, hw, hne1, hne2, hsufr, hpref⟩
        · have := infLen h1
          simp at this
          omega
        · exact hOut w h20 hq h1
        · have hw1 : w1 = [c] := sufSingleton hsufr hne1
          have hq2 : w2.all keyIdCh = true :=
            allOfAppendRight (p := keyIdCh) (by rw [← hw]; exact hq)
          have hw2 : w2 <+: cs := subUrlAux_qpref f cs
            (by simp only [List.length_cons] at hl; omega) w2 hpref hq2
          have hwin : w <+: c :: cs := by
            obtain ⟨u, hu⟩ := hw2
            refine ⟨u, ?_⟩
            rw [hw, hw1]
            simp only [List.cons_append, List.nil_append, List.append_assoc]
            rw [hu]
          exact hInv w h20 hq (prefInfix hwin)

/-! ### Assembly: the redaction pipeline never reintroduces a bounded token -/

theorem redInv_of_no20 {l : List Char} (h : no20 l) : redInv l :=
  fun w h20 hq hinf => absurd hinf (h w h20 hq)

theorem no20_of_marker {m : List Char} (h : maxRunA keyIdCh 0 0 m ≤ 19) :
    ∀ w : List Char, w.length = 20 → w.all keyIdCh = true → ¬ w <:+: m := by
  intro w h20 hall hinf
  have := maxRunA_infix keyIdCh hinf hall
  omega

theorem allOfTake {p : Char → Bool} {l : List Char} (n : Nat) (h : l.all p = true) :
    (l.take n).all p = true := by
  rw [List.all_eq_true] at h ⊢
  intro x hx
  exact h x (List.take_subset n l hx)

theorem keyId_secret {c : Char} (h : keyIdCh c = true) : secretCh c = true := by
  simp only [keyIdCh, Bool.or_eq_true] at h
  rcases h with h | h <;> simp [secretCh, Char.isAlpha, h]

theorem pass1_no20 {s : List Char} (h21 : no21 s) : no20 (runSub keyIdCh 20 mark1 s) := by
  intro w h20 hq hinf
  refine runSubA_no20 keyIdCh keyIdCh 20 mark1 (fun _ hc => hc)
    (no20_of_marker (by decide)) s [] rfl ?_ w h20 hq hinf
  intro r hr hall hlen w' h20' hq' hinf'
  rw [List.nil_append] at hr
  have hwr := infLen hinf'
  have hr21 : (r.take 21) <:+: s :=
    infixTrans (prefInfix (List.take_prefix 21 r)) hr
  refine h21 (r.take 21) ?_ (allOfTake 21 hall) hr21
  rw [List.length_take]
  omega

theorem pass2_no20 {t : List Char} (h : no20 t) : no20 (runSub secretCh 40 mark2 t) := by
  intro w h20 hq hinf
  refine runSubA_no20 secretCh keyIdCh 40 mark2 (fun c hc => keyId_secret hc)
    (no20_of_marker (by decide)) t [] rfl ?_ w h20 hq hinf
  intro r hr hall hlen w' h20' hq' hinf'
  rw [List.nil_append] at hr
  exact h w' h20' hq' (infixTrans hinf' hr)

theorem apiHead : ∃ c cs, "api_key=REDACTED".data = c :: cs ∧ keyIdCh c = false :=
  ⟨'a', "pi_key=REDACTED".data, by decide, by decide⟩

theorem pwHead : ∃ c cs, "password=REDACTED".data = c :: cs ∧ keyIdCh c = false :=
  ⟨'p', "assword=REDACTED".data, by decide, by decide⟩

theorem secHead : ∃ c cs, "secret=REDACTED".data = c :: cs ∧ keyIdCh c = false :=
  ⟨'s', "ecret=REDACTED".data, by decide, by decide⟩

theorem tokHead : ∃ c cs, "token=REDACTED".data = c :: cs ∧ keyIdCh c = false :=
  ⟨'t', "oken=REDACTED".data, by decide, by decide⟩

theorem redactL_inv {s : List Char} (h21 : no21 s) : redInv (redactL s) := by
  have i2 : redInv (runSub secretCh 40 mark2 (runSub keyIdCh 20 mark1 s)) :=
    redInv_of_no20 (pass2_no20 (pass1_no20 h21))
  have i3 := subKeyAux_inv tryApi "api_key=REDACTED".data
    (fun l r h => tryApi_suffix l r h) apiHead
    (no20_of_marker (by decide)) (replSufOK_spec (by decide)) _ _ (Nat.le_refl _) i2
  have i4 := subKeyAux_inv (tryKw "password".data) "password=REDACTED".data
    (fun l r h => tryKw_suffix "password".data l r h) pwHead
    (no20_of_marker (by decide)) (replSufOK_spec (by decide)) _ _ (Nat.le_refl _) i3
  have i5 := subKeyAux_inv (tryKw "secret".data) "secret=REDACTED".data
    (fun l r h => tryKw_suffix "secret".data l r h) secHead
    (no20_of_marker (by decide)) (replSufOK_spec (by decide)) _ _ (Nat.le_refl _) i4
  have i6 := subKeyAux_inv (tryKw "token".data) "token=REDACTED".data
    (fun l r h => tryKw_suffix "token".data l r h) tokHead
    (no20_of_marker (by decide)) (replSufOK_spec (by decide)) _ _ (Nat.le_refl _) i5
  have i7 := subUrlAux_inv (no20_of_marker (by decide)) (no20_of_marker (by decide))
    (replSufOK_spec (by decide)) (replSufOK_spec (by decide)) _ _ (Nat.le_refl _) i6
  exact i7

theorem redact_token_absent {s t : List Char} (hmax : maxRunA keyIdCh 0 0 s ≤ 20)
    (ht20 : t.length = 20) (htall : t.all keyIdCh = true) (htr : startsRSb t = false) :
    ¬ t <:+: redactL s := by
  intro hinf
  have hrs : startsRS t := redactL_inv (no21_of_maxRun hmax) t ht20 htall hinf
  rw [← startsRSb_iff, htr] at hrs
  exact absurd hrs (by simp)

theorem tryUrl_keyId {c : Char} (cs : List Char) (hc : keyIdCh c = true) :
    tryUrl (c :: cs) = none := by
  have hne : ¬ (c = 'h') := by
    intro h
    rw [h] at hc
    exact absurd hc (by decide)
  have hstrip : stripPrefixCh "http".data (c :: cs) = none := by
    rw [show stripPrefixCh "http".data (c :: cs)
        = if c = 'h' then stripPrefixCh "ttp".data cs else none from rfl,
      if_neg hne]
  unfold tryUrl
  rw [hstrip]

theorem subUrlAux_keyId :
    ∀ (fuel : Nat) (l : List Char), l.all keyIdCh = true → subUrlAux fuel l = l := by
  intro fuel
  induction fuel with
  | zero =>
    intro l _
    cases l with
    | nil => rfl
    | cons c cs => rfl
  | succ f ih =>
    intro l hall
    cases l with
    | nil => rfl
    | cons c cs =>
      rw [List.all_cons, Bool.and_eq_true] at hall
      rw [subUrlAux_succ, tryUrl_keyId cs hall.1, ih cs hall.2]

theorem subUrl_keyId (l : List Char) (hall : l.all keyIdCh = true) : subUrl l = l :=
  subUrlAux_keyId l.length l hall

/-- Counterexample to C5 as stated, in both refuted clauses.  (1) When the
20-character uppercase token is the quoted value of a `password=` assignment,
the bare-token pattern fires first and rewrites the value to the
credential-id marker, but the later `password` key/value pattern then
collapses the whole assignment to `password=REDACTED`, so the credential-id
marker does not appear in the persisted record, contradicting the claim's
marker clause.  (2) When the bare token is a string positional argument, the
argument loop of `filter` substitutes into the original value on every
iteration, so only the last (URL-credential) pattern affects the argument and
the original token is persisted verbatim, contradicting the claim's
token-absence clause for string arguments. -/
theorem claim_C5_cex :
    (SensitiveDataFilter ⟨.str "password=\"AAAAAAAAAAAAAAAAAAAA\"", []⟩).1.msg =
      .str "password=REDACTED" ∧
    ¬ ("AWS_ACCESS_KEY_REDACTED".data <:+: "password=REDACTED".data) ∧
    (SensitiveDataFilter ⟨.str "m", [.str "AAAAAAAAAAAAAAAAAAAA"]⟩).1.args =
      [.str "AAAAAAAAAAAAAAAAAAAA"] := by
  refine ⟨by decide, ?_, by decide⟩
  intro h
  exact absurd ((occursIn_iff _ _).2 h) (by decide)

/-- Claim C5 (amended): for a record whose string message has no
uppercase-alphanumeric run longer than 20 characters, a 20-character
uppercase-alphanumeric token that occurs in the message as a maximal run and
does not begin with a nonempty suffix of `REDACTED` is rewritten by the first
pattern to the credential-id marker, and the token itself appears nowhere in
the filtered message; the marker, however, may be destroyed by a later
pattern, as in the key=value case where the whole assignment collapses to
`password=REDACTED`; and the claim is false for positional arguments: the
argument loop of `filter` substitutes into the original value on every
iteration, so a string argument is rewritten through the last (URL-credential)
pattern alone and an argument consisting of the bare token persists
unchanged. -/
theorem claim_C5 (msg a b t : List Char) (args : List LogArg)
    (ht20 : t.length = 20) (htall : t.all keyIdCh = true)
    (htr : startsRSb t = false)
    (hmsg : maxRunA keyIdCh 0 0 msg ≤ 20)
    (hdec : msg = a ++ t ++ b)
    (hleft : a = [] ∨ ∃ a' c, a = a' ++ [c] ∧ keyIdCh c = false)
    (hright : b = [] ∨ ∃ c b', b = c :: b' ∧ keyIdCh c = false) :
    (¬ t <:+: (redact ⟨msg⟩).data) ∧
    mark1 <:+: runSub keyIdCh 20 mark1 msg ∧
    (SensitiveDataFilter ⟨.str ⟨msg⟩, args⟩).1.msg = .str (redact ⟨msg⟩) ∧
    (∀ s : String, LogArg.str s ∈ args →
      LogArg.str (redactArg s) ∈ (SensitiveDataFilter ⟨.str ⟨msg⟩, args⟩).1.args) ∧
    (LogArg.str ⟨t⟩ ∈ args →
      LogArg.str ⟨t⟩ ∈ (SensitiveDataFilter ⟨.str ⟨msg⟩, args⟩).1.args) ∧
    redact "password=\"AAAAAAAAAAAAAAAAAAAA\"" = "password=REDACTED" := by
  have hmem : ∀ s : String, LogArg.str s ∈ args →
      LogArg.str (redactArg s) ∈ (SensitiveDataFilter ⟨.str ⟨msg⟩, args⟩).1.args := by
    intro s hs
    unfold SensitiveDataFilter
    have hne : args.isEmpty = false := by
      cases args with
      | nil => simp at hs
      | cons x xs => rfl
    simp only [hne, Bool.false_eq_true, if_false]
    exact List.mem_map.2 ⟨.str s, hs, rfl⟩
  refine ⟨?_, ?_, rfl, hmem, ?_, by decide⟩
  · exact redact_token_absent hmsg ht20 htall htr
  · rw [hdec]
    exact runSub_marker keyIdCh 20 mark1 (by omega) t a b htall ht20 hleft hright
  · intro hin
    have hfix : redactArg ⟨t⟩ = ⟨t⟩ := by
      unfold redactArg
      rw [show (String.mk t).data = t from rfl, subUrl_keyId t htall]
    have := hmem ⟨t⟩ hin
    rw [hfix] at this
    exact this

/-- Witness for C5 at a concrete bounded-token message with the bare token
also passed as a positional argument. -/
theorem claim_C5_witness :
    (¬ "AAAAAAAAAAAAAAAAAAAA".data <:+: (redact ⟨"x AAAAAAAAAAAAAAAAAAAA y".data⟩).data) ∧
    mark1 <:+: runSub keyIdCh 20 mark1 "x AAAAAAAAAAAAAAAAAAAA y".data ∧
    (SensitiveDataFilter ⟨.str ⟨"x AAAAAAAAAAAAAAAAAAAA y".data⟩,
        [.str ⟨"AAAAAAAAAAAAAAAAAAAA".data⟩]⟩).1.msg =
      .str (redact ⟨"x AAAAAAAAAAAAAAAAAAAA y".data⟩) ∧
    (∀ s : String, LogArg.str s ∈ [LogArg.str ⟨"AAAAAAAAAAAAAAAAAAAA".data⟩] →
      LogArg.str (redactArg s) ∈
        (SensitiveDataFilter ⟨.str ⟨"x AAAAAAAAAAAAAAAAAAAA y".data⟩,
          [.str ⟨"AAAAAAAAAAAAAAAAAAAA".data⟩]⟩).1.args) ∧
    (LogArg.str ⟨"AAAAAAAAAAAAAAAAAAAA".data⟩ ∈
        [LogArg.str ⟨"AAAAAAAAAAAAAAAAAAAA".data⟩] →
      LogArg.str ⟨"AAAAAAAAAAAAAAAAAAAA".data⟩ ∈
        (SensitiveDataFilter ⟨.str ⟨"x AAAAAAAAAAAAAAAAAAAA y".data⟩,
          [.str ⟨"AAAAAAAAAAAAAAAAAAAA".data⟩]⟩).1.args) ∧
    redact "password=\"AAAAAAAAAAAAAAAAAAAA\"" = "password=REDACTED" :=
  claim_C5 "x AAAAAAAAAAAAAAAAAAAA y".data "x ".data " y".data
    "AAAAAAAAAAAAAAAAAAAA".data [.str ⟨"AAAAAAAAAAAAAAAAAAAA".data⟩]
    (by decide) (by decide) (by decide) (by decide)
    (by decide)
    (Or.inr ⟨['x'], ' ', by decide, by decide⟩)
    (Or.inr ⟨' ', ['y'], by decide, by decide⟩)

/-! ### The managed-registry reference grammar -/

theorem allTakeWhile (p : Char → Bool) : ∀ l : List Char, (l.takeWhile p).all p = true := by
  intro l
  induction l with
  | nil => rfl
  | cons c cs ih =>
    rw [List.takeWhile_cons]
    by_cases hc : p c = true
    · simp [hc, ih]
    · simp [hc]

theorem tw_append (p : Char → Bool) (l r : List Char) (hall : l.all p = true)
    (hb : ∀ c cs, r = c :: cs → p c = false) :
    (l ++ r).takeWhile p = l ∧ (l ++ r).dropWhile p = r := by
  induction l with
  | nil =>
    simp only [List.nil_append]
    cases r with
    | nil => exact ⟨rfl, rfl⟩
    | cons c cs =>
      have hc := hb c cs rfl
      rw [List.takeWhile_cons, List.dropWhile_cons]
      simp [hc]
  | cons x l' ih =>
    simp only [List.all_cons, Bool.and_eq_true] at hall
    obtain ⟨htw, hdw⟩ := ih hall.2
    rw [List.cons_append, List.takeWhile_cons, List.dropWhile_cons]
    simp [hall.1, htw, hdw]

/-- Claim C1: a string is accepted by `is_ecr_repository` iff it decomposes
as a 12-digit account id, the literal `.dkr.ecr.`, a region token
`<letters>-<letters>-<digit>`, the literal `.amazonaws.com/` and a non-empty
repository path (which may carry an optional `:tag` suffix); consequently
every string of that shape is accepted and every string violating any one
constituent (account-id digit count, the `dkr` segment, the region shape, the
domain, or the non-empty path) is rejected. -/
theorem claim_C1 (s : String) :
    is_ecr_repository s = true ↔
    ∃ (acct r1 r2 : List Char) (d : Char) (path : List Char),
      s.data = acct ++ ".dkr.ecr.".data ++ r1 ++ ['-'] ++ r2 ++ ['-'] ++ [d] ++
        ".amazonaws.com/".data ++ path ∧
      acct.length = 12 ∧ acct.all Char.isDigit = true ∧
      r1 ≠ [] ∧ r1.all Char.isAlpha = true ∧
      r2 ≠ [] ∧ r2.all Char.isAlpha = true ∧
      d.isDigit = true ∧ path ≠ [] := by
  constructor
  · intro h
    unfold is_ecr_repository ecrRefAccept at h
    rw [Bool.and_eq_true] at h
    obtain ⟨h12, h⟩ := h
    split at h
    · simp at h
    · next rest1 hsp1 =>
      rw [Bool.and_eq_true] at h
      obtain ⟨hr1ne, h⟩ := h
      split at h
      · next rest3 heq2 =>
        rw [Bool.and_eq_true] at h
        obtain ⟨hr2ne, h⟩ := h
        split at h
        · next d rest6 heq4 =>
          rw [Bool.and_eq_true] at h
          obtain ⟨hd, h⟩ := h
          split at h
          · simp at h
          · next path hsp2 =>
            refine ⟨s.data.takeWhile Char.isDigit, rest1.takeWhile Char.isAlpha,
              rest3.takeWhile Char.isAlpha, d, path, ?_, of_decide_eq_true h12,
              allTakeWhile _ _, ?_, allTakeWhile _ _, ?_, allTakeWhile _ _, hd, ?_⟩
            · have e1 : s.data =
                  s.data.takeWhile Char.isDigit ++ s.data.dropWhile Char.isDigit :=
                (List.takeWhile_append_dropWhile _ _).symm
              have e2 : s.data.dropWhile Char.isDigit = ".dkr.ecr.".data ++ rest1 :=
                stripPrefixCh_eq _ _ _ hsp1
              have e3 : rest1 =
                  rest1.takeWhile Char.isAlpha ++ rest1.dropWhile Char.isAlpha :=
                (List.takeWhile_append_dropWhile _ _).symm
              have e4 : rest3 =
                  rest3.takeWhile Char.isAlpha ++ rest3.dropWhile Char.isAlpha :=
                (List.takeWhile_append_dropWhile _ _).symm
              have e5 : rest6 = ".amazonaws.com/".data ++ path :=
                stripPrefixCh_eq _ _ _ hsp2
              conv_lhs => rw [e1, e2]
              conv_lhs => rw [e3, heq2, e4, heq4, e5]
              simp [List.append_assoc]
            · intro hz
              rw [hz] at hr1ne
              simp at hr1ne
            · intro hz
              rw [hz] at hr2ne
              simp at hr2ne
            · intro hz
              rw [hz] at h
              simp at h
        · simp at h
      · simp at h
  · rintro ⟨acct, r1, r2, d, path, hs, h12, hada, hr1ne, hr1a, hr2ne, hr2a, hd, hpne⟩
    unfold is_ecr_repository ecrRefAccept
    have hs' : s.data = acct ++ (".dkr.ecr.".data ++ (r1 ++ ('-' :: (r2 ++ ('-' ::
        (d :: (".amazonaws.com/".data ++ path))))))) := by
      rw [hs]
      simp [List.append_assoc]
    rw [hs']
    obtain ⟨tw1, dw1⟩ := tw_append Char.isDigit acct
      (".dkr.ecr.".data ++ (r1 ++ ('-' :: (r2 ++ ('-' ::
        (d :: (".amazonaws.com/".data ++ path))))))) hada
      (by intro c cs hcc; injection hcc with h1 _; rw [← h1]; decide)
    rw [tw1, dw1, stripPrefixCh_append]
    obtain ⟨tw2, dw2⟩ := tw_append Char.isAlpha r1
      ('-' :: (r2 ++ ('-' :: (d :: (".amazonaws.com/".data ++ path))))) hr1a
      (by intro c cs hcc; injection hcc with h1 _; rw [← h1]; decide)
    obtain ⟨tw3, dw3⟩ := tw_append Char.isAlpha r2
      ('-' :: (d :: (".amazonaws.com/".data ++ path))) hr2a
      (by intro c cs hcc; injection hcc with h1 _; rw [← h1]; decide)
    have h1 : r1.isEmpty = false := by
      cases r1 with
      | nil => exact absurd rfl hr1ne
      | cons _ _ => rfl
    have h2 : r2.isEmpty = false := by
      cases r2 with
      | nil => exact absurd rfl hr2ne
      | cons _ _ => rfl
    have h3 : path.isEmpty = false := by
      cases path with
      | nil => exact absurd rfl hpne
      | cons _ _ => rfl
    have hbody : (!(List.takeWhile Char.isAlpha (r1 ++ '-' :: (r2 ++ '-' :: d ::
        (".amazonaws.com/".data ++ path)))).isEmpty &&
        (match List.dropWhile Char.isAlpha (r1 ++ '-' :: (r2 ++ '-' :: d ::
            (".amazonaws.com/".data ++ path))) with
        | '-' :: rest3 =>
          !(List.takeWhile Char.isAlpha rest3).isEmpty &&
          (match List.dropWhile Char.isAlpha rest3 with
          | '-' :: d :: rest6 =>
            d.isDigit && (match stripPrefixCh ".amazonaws.com/".data rest6 with
              | none => false
              | some path => !path.isEmpty)
          | _ => false)
        | _ => false)) = true := by
      rw [tw2, dw2, Bool.and_eq_true]
      refine ⟨by rw [h1]; rfl, ?_⟩
      show (!(List.takeWhile Char.isAlpha (r2 ++ '-' :: d ::
          (".amazonaws.com/".data ++ path))).isEmpty &&
        (match List.dropWhile Char.isAlpha (r2 ++ '-' :: d ::
            (".amazonaws.com/".data ++ path)) with
        | '-' :: d :: rest6 =>
          d.isDigit && (match stripPrefixCh ".amazonaws.com/".data rest6 with
            | none => false
            | some path => !path.isEmpty)
        | _ => false)) = true
      rw [tw3, dw3, Bool.and_eq_true]
      refine ⟨by rw [h2]; rfl, ?_⟩
      show (d.isDigit && (match stripPrefixCh ".amazonaws.com/".data
          (".amazonaws.com/".data ++ path) with
        | none => false
        | some path => !path.isEmpty)) = true
      rw [hd, stripPrefixCh_append, Bool.and_eq_true]
      refine ⟨rfl, ?_⟩
      show (!path.isEmpty) = true
      rw [h3]
      rfl
    rw [Bool.and_eq_true]
    exact ⟨decide_eq_true h12, hbody⟩
